import Mathlib

/-!
Verification of the text-matching core of `check_links.py`.

Strings are modelled as `List Char`.  Python's `\w` character class is
modelled as ASCII alphanumerics plus underscore, `\s` as the six ASCII
whitespace characters, and `str.lower` as ASCII lowering; the source is
exercised on exactly these characters.  Python `text[a:b]` slicing (which
clamps out-of-range bounds) is `slice`, `str.find` is `findSub`
(returning `Option Nat` instead of `-1`), and `str.split()` /
`' '.join` are `splitWs` / `joinWs`.
-/

namespace CheckLinks

/-- ASCII model of the characters matched by the regex class `\s`
and by `str.strip` / `str.split()`. -/
def isSpaceChar (c : Char) : Bool :=
  c = ' ' || c = '\t' || c = '\n' || c = '\r' || c = '\x0b' || c = '\x0c'

/-- The regex class `\d`. -/
def isDigitChar (c : Char) : Bool := c.isDigit

/-- ASCII model of the regex class `\w` (letters, digits, underscore). -/
def isWordChar (c : Char) : Bool := c.isAlphanum || c = '_'

/-- `pat` is a leading segment of `l` (Python `str.startswith`). -/
def startsList : List Char → List Char → Bool
  | [], _ => true
  | _ :: _, [] => false
  | a :: as_, b :: bs => a = b && startsList as_ bs

/-- Python `str.endswith`. -/
def endsList (p l : List Char) : Bool := startsList p.reverse l.reverse

/-- Python slice `text[a:b]` (clamping at both ends). -/
def slice (l : List Char) (a b : Nat) : List Char := (l.drop a).take (b - a)

/-- Helper for `findSub`: scan suffixes of the haystack left to right. -/
def findSubAux (pat : List Char) : List Char → Nat → Option Nat
  | [], i => if startsList pat [] then some i else none
  | c :: t, i => if startsList pat (c :: t) then some i else findSubAux pat t (i + 1)

/-- Python `haystack.find(pat)`: index of the leftmost occurrence,
`none` for Python's `-1`. -/
def findSub (hay pat : List Char) : Option Nat := findSubAux pat hay 0

/-- Python `str.lower` (ASCII model). -/
def lowerL (l : List Char) : List Char := l.map Char.toLower

/-- Drop leading whitespace (`str.lstrip`). -/
def trimLeft (l : List Char) : List Char := l.dropWhile isSpaceChar

/-- Drop trailing whitespace (`str.rstrip`). -/
def trimRight (l : List Char) : List Char := (l.reverse.dropWhile isSpaceChar).reverse

/-- Python `str.strip()`. -/
def trim (l : List Char) : List Char := trimRight (trimLeft l)

theorem length_dropWhile_le' (p : Char → Bool) (l : List Char) :
    (l.dropWhile p).length ≤ l.length := by
  induction l with
  | nil => simp [List.dropWhile]
  | cons a t ih =>
    by_cases h : p a
    · simp only [List.dropWhile, h, List.length_cons]
      exact Nat.le_succ_of_le ih
    · simp [List.dropWhile, h]

theorem takeWhile_add_dropWhile_length (p : Char → Bool) (l : List Char) :
    (l.takeWhile p).length + (l.dropWhile p).length = l.length := by
  have h := congrArg List.length (List.takeWhile_append_dropWhile (p := p) (l := l))
  rw [List.length_append] at h
  exact h

/-- Helper for `splitWs`: the accumulator holds the current word,
reversed. -/
def splitWsAux : List Char → List Char → List (List Char)
  | [], acc => if acc = [] then [] else [acc.reverse]
  | c :: t, acc =>
    if isSpaceChar c then
      if acc = [] then splitWsAux t [] else acc.reverse :: splitWsAux t []
    else splitWsAux t (c :: acc)

/-- Python `str.split()`: split on whitespace runs, dropping empty pieces. -/
def splitWs (l : List Char) : List (List Char) := splitWsAux l []

/-- Python `' '.join(words)`. -/
def joinWs : List (List Char) → List Char
  | [] => []
  | [w] => w
  | w :: ws => w ++ ' ' :: joinWs ws

/-- Attempt, at a position just after `'['` and a recognised `id`/`club`
keyword, to parse one or more digits, `'|'`, one or more non-`']'`
label characters, and `']'`.  Returns the label (the regex capture
group) and the remainder after the closing bracket. -/
def parseTagAfter (rest : List Char) : Option (List Char × List Char) :=
  if rest.takeWhile isDigitChar = [] then none
  else
    match rest.dropWhile isDigitChar with
    | '|' :: rest3 =>
      if rest3.takeWhile (fun x => x ≠ ']') = [] then none
      else
        match rest3.dropWhile (fun x => x ≠ ']') with
        | ']' :: rest5 => some (rest3.takeWhile (fun x => x ≠ ']'), rest5)
        | _ => none
    | _ => none

/-- Anchored form of the regex `\[(?:id|club)\d+\|([^\]]+)\]` from step 1
of `clean_text_for_search`, applied just after a `'['`. -/
def parseTag (l : List Char) : Option (List Char × List Char) :=
  if l.take 2 = ['i', 'd'] then parseTagAfter (l.drop 2)
  else if l.take 4 = ['c', 'l', 'u', 'b'] then parseTagAfter (l.drop 4)
  else none

theorem parseTagAfter_length {rest lbl r : List Char}
    (h : parseTagAfter rest = some (lbl, r)) : r.length < rest.length := by
  unfold parseTagAfter at h
  split at h
  · exact absurd h (by simp)
  · rename_i hds
    split at h
    · rename_i rest3 hrw
      have hd1 : rest3.length < rest.length := by
        have h1 := takeWhile_add_dropWhile_length isDigitChar rest
        have h2 : 0 < (rest.takeWhile isDigitChar).length := List.length_pos.mpr hds
        rw [hrw] at h1
        simp only [List.length_cons] at h1
        omega
      split at h
      · exact absurd h (by simp)
      · rename_i hlbl
        split at h
        · rename_i rest5 hrw4
          have hd2 : rest5.length < rest3.length := by
            have h1 := takeWhile_add_dropWhile_length (fun x => x ≠ ']') rest3
            have h2 : 0 < (rest3.takeWhile (fun x => x ≠ ']')).length :=
              List.length_pos.mpr hlbl
            rw [hrw4] at h1
            simp only [List.length_cons] at h1
            omega
          simp only [Option.some.injEq, Prod.mk.injEq] at h
          obtain ⟨-, h2⟩ := h
          subst h2
          omega
        · exact absurd h (by simp)
    · exact absurd h (by simp)

theorem parseTag_length {l lbl r : List Char} (h : parseTag l = some (lbl, r)) :
    r.length < l.length := by
  unfold parseTag at h
  split at h
  · rename_i h2
    have hlen : 2 ≤ l.length := by
      have := congrArg List.length h2
      simp [List.length_take] at this
      omega
    have := parseTagAfter_length h
    have hdl : (l.drop 2).length = l.length - 2 := by simp
    omega
  · split at h
    · rename_i h4
      have hlen : 4 ≤ l.length := by
        have := congrArg List.length h4
        simp [List.length_take] at this
        omega
      have := parseTagAfter_length h
      have hdl : (l.drop 4).length = l.length - 4 := by simp
      omega
    · exact absurd h (by simp)

/-- Step 1 of `clean_text_for_search`, with explicit fuel so that the
scan is structurally recursive.  Each step consumes at least one input
character, so fuel equal to the input length (as supplied by `step1`)
never runs out. -/
def step1F : Nat → List Char → List Char
  | 0, l => l
  | _ + 1, [] => []
  | fuel + 1, c :: rest =>
    if c = '[' then
      match parseTag rest with
      | some (label, rest') => label ++ step1F fuel rest'
      | none => c :: step1F fuel rest
    else c :: step1F fuel rest

/-- Step 1 of `clean_text_for_search`:
`re.sub(r'\[(?:id|club)\d+\|([^\]]+)\]', r'\1', text)` — replace each
(leftmost, non-overlapping) `[id123|label]` / `[club456|label]`
construct with its label. -/
def step1 (l : List Char) : List Char := step1F l.length l

theorem dropWhile_cons_length {q : Char → Bool} {l r : List Char} {c : Char}
    (h : l.dropWhile q = c :: r) : r.length < l.length := by
  have h1 := length_dropWhile_le' q l
  rw [h] at h1
  simp only [List.length_cons] at h1
  omega

/-- Step 2 of `clean_text_for_search`:
`re.sub(r'\[[^\]]*\]', ' ', ...)` — replace each remaining bracketed
span (including the brackets) with a single space; a `'['` with no
matching `']'` is left in place.  Explicit fuel keeps the scan
structurally recursive (each step consumes at least one input
character, so fuel equal to the input length never runs out). -/
def step2F : Nat → List Char → List Char
  | 0, l => l
  | _ + 1, [] => []
  | fuel + 1, c :: rest =>
    if c = '[' then
      match rest.dropWhile (fun x => x ≠ ']') with
      | ']' :: rest3 => ' ' :: step2F fuel rest3
      | _ => c :: step2F fuel rest
    else c :: step2F fuel rest

def step2 (l : List Char) : List Char := step2F l.length l

/-- Step 3 of `clean_text_for_search`:
`re.sub(r'[^\w\s]', ' ', ...)` — every character that is neither a word
character nor whitespace becomes a space. -/
def step3 (l : List Char) : List Char :=
  l.map (fun c => if isWordChar c || isSpaceChar c then c else ' ')

/-- `re.sub(r'\d+', ' ', ...)` — replace each maximal digit run with a
single space (a digit followed by another digit is absorbed into the
run; the last digit of a run emits the space). -/
def subDigits : List Char → List Char
  | [] => []
  | [c] => if isDigitChar c then [' '] else [c]
  | c :: d :: rest =>
    if isDigitChar c then
      if isDigitChar d then subDigits (d :: rest)
      else ' ' :: subDigits (d :: rest)
    else c :: subDigits (d :: rest)

/-- Step 4 of `clean_text_for_search` (only when `remove_digits`):
record the whitespace-delimited words containing a digit, strip all
digit runs, then drop every remaining word of length ≤ 2 that is a
leading or trailing fragment of a recorded digit-bearing word. -/
def step4 (s : List Char) : List Char :=
  let words := splitWs s
  let words_with_digits := words.filter (fun w => w.any isDigitChar)
  let cleaned := subDigits s
  let words_after := splitWs cleaned
  let words_filtered := words_after.filter (fun w =>
    !(words_with_digits.any (fun ow => startsList w ow || endsList w ow) &&
      decide (w.length ≤ 2)))
  joinWs words_filtered

/-- Step 5 of `clean_text_for_search`:
`re.sub(r'\s+', ' ', ...)` — collapse each maximal whitespace run to a
single space (a whitespace character followed by more whitespace is
absorbed into the run; the last one emits the space). -/
def collapseWs : List Char → List Char
  | [] => []
  | [c] => if isSpaceChar c then [' '] else [c]
  | c :: d :: rest =>
    if isSpaceChar c then
      if isSpaceChar d then collapseWs (d :: rest)
      else ' ' :: collapseWs (d :: rest)
    else c :: collapseWs (d :: rest)

/-- `clean_text_for_search(text, remove_digits)` from the source:
steps 1–5 in order, then strip; empty input yields the empty string. -/
def clean_text_for_search (text : List Char) (remove_digits : Bool) : List Char :=
  if text = [] then []
  else
    let c1 := step1 text
    let c2 := step2 c1
    let c3 := step3 c2
    let c4 := if remove_digits then step4 c3 else c3
    trim (collapseWs c4)

/-! ### Configuration constants of the source -/

def MIN_FUZZY_TEXT_LENGTH : Nat := 3

/-- `MIN_MATCH_RATIO = 0.7` of the source, as a rational. -/
def minMatchRatioQ : ℚ := 7 / 10

def MIN_WORDS_IN_SEQUENCE : Nat := 3

def MAX_WORDS_BETWEEN : Nat := 1

def CONTEXT_WORDS_BEFORE : Nat := 20

def CONTEXT_WORDS_AFTER : Nat := 20

/-! ### `extract_context` -/

/-- The backward loop of `extract_context`:
`while start > 0 and words_count < words_before: start -= 1; if start > 0
and text[start].isspace() and not text[start-1].isspace(): words_count += 1`. -/
def ctxStartLoop (text : List Char) (words_before : Nat) : Nat → Nat → Nat
  | 0, _ => 0
  | start + 1, wc =>
    if wc < words_before then
      let wc' := if 0 < start && isSpaceChar (text.getD start ' ') &&
          !isSpaceChar (text.getD (start - 1) ' ') then wc + 1 else wc
      ctxStartLoop text words_before start wc'
    else start + 1

/-- The forward loop of `extract_context`, with fuel `text.length - e`
(the index `e` increments every iteration and the loop stops at
`text.length`, so this fuel never runs out):
`while end < len(text) and words_count < words_after: if end < len(text)-1
and text[end].isspace() and not text[end+1].isspace(): words_count += 1;
end += 1`. -/
def ctxEndLoopF (text : List Char) (words_after : Nat) : Nat → Nat → Nat → Nat
  | 0, e, _ => e
  | fuel + 1, e, wc =>
    if e < text.length ∧ wc < words_after then
      let wc' := if e + 1 < text.length && isSpaceChar (text.getD e ' ') &&
          !isSpaceChar (text.getD (e + 1) ' ') then wc + 1 else wc
      ctxEndLoopF text words_after fuel (e + 1) wc'
    else e

def ctxEndLoop (text : List Char) (words_after : Nat) (e wc : Nat) : Nat :=
  ctxEndLoopF text words_after (text.length - e) e wc

/-- `extract_context(text, position, match_length, words_before, words_after)`:
the found slice and up to `words_before`/`words_after` whole words of
surrounding context, all stripped. -/
def extract_context (text : List Char) (position match_length words_before words_after : Nat) :
    List Char × List Char × List Char :=
  let found_text := slice text position (position + match_length)
  let start := ctxStartLoop text words_before position 0
  let e := ctxEndLoop text words_after (position + match_length) 0
  (trim (slice text start position), trim found_text,
    trim (slice text (position + match_length) e))

/-! ### The gapped in-order sequence matcher (lines 392–419 / 506–530) -/

/-- The `while search_idx < len(search_words_list) and page_idx <
len(page_words_list)` loop.  Arguments: the full needle word list (for
restarts), the gap bound, the remaining needle words, the remaining
haystack words, the current haystack index, the accumulated
`found_sequence`, `sequence_start_pos` (`none` for Python's `-1`), and
`words_skipped`. -/
def seqLoop (allSearch : List (List Char)) (maxGap : Nat) :
    List (List Char) → List (List Char) → Nat → List (List Char) → Option Nat → Nat →
    List (List Char) × Option Nat
  | _, [], _, fs, sp, _ => (fs, sp)
  | [], _ :: _, _, fs, sp, _ => (fs, sp)
  | s :: sw, p :: pw, pidx, fs, sp, skipped =>
    if s = p then
      seqLoop allSearch maxGap sw pw (pidx + 1) (fs ++ [s])
        (if sp = none then some pidx else sp) 0
    else if skipped + 1 > maxGap then
      seqLoop allSearch maxGap allSearch pw (pidx + 1) [] none 0
    else
      seqLoop allSearch maxGap (s :: sw) pw (pidx + 1) fs sp (skipped + 1)

/-- Run the sequence matcher on needle and haystack token lists with a
given gap bound (`MAX_WORDS_BETWEEN` in the source). -/
def seqMatchG (searchWords pageWords : List (List Char)) (maxGap : Nat) :
    List (List Char) × Option Nat :=
  seqLoop searchWords maxGap searchWords pageWords 0 [] none 0

/-- `match_ratio = len(found_sequence) / len(search_words_list)` (0 for an
empty needle). -/
def matchRatioOf (fs searchWords : List (List Char)) : ℚ :=
  if searchWords.length = 0 then 0
  else (fs.length : ℚ) / (searchWords.length : ℚ)

/-- The acceptance test of the sequence matcher:
`match_ratio >= MIN_MATCH_RATIO and len(found_sequence) >=
MIN_WORDS_IN_SEQUENCE`. -/
def seqSuccess (fs searchWords : List (List Char)) : Prop :=
  minMatchRatioQ ≤ matchRatioOf fs searchWords ∧
    MIN_WORDS_IN_SEQUENCE ≤ fs.length

/-- The rational threshold test, cross-multiplied into natural-number
arithmetic (so that it evaluates by kernel reduction). -/
theorem seqSuccess_iff_nat (fs searchWords : List (List Char)) :
    seqSuccess fs searchWords ↔
      searchWords.length ≠ 0 ∧ 7 * searchWords.length ≤ 10 * fs.length ∧
        MIN_WORDS_IN_SEQUENCE ≤ fs.length := by
  unfold seqSuccess matchRatioOf minMatchRatioQ
  by_cases h : searchWords.length = 0
  · simp only [h, if_pos, reduceIte, ne_eq, not_true_eq_false, false_and, iff_false,
      not_and]
    intro hle
    norm_num at hle
  · simp only [h, if_neg, reduceIte, ne_eq, not_false_eq_true, true_and]
    have hpos : (0 : ℚ) < (searchWords.length : ℚ) :=
      Nat.cast_pos.mpr (Nat.pos_of_ne_zero h)
    rw [div_le_div_iff₀ (by norm_num) hpos, and_congr_left_iff]
    intro _
    rw [mul_comm ((fs.length : ℚ)) 10]
    constructor
    · intro hle; exact_mod_cast hle
    · intro hle; exact_mod_cast hle

instance (fs searchWords : List (List Char)) : Decidable (seqSuccess fs searchWords) :=
  decidable_of_iff _ (seqSuccess_iff_nat fs searchWords).symm

/-! ### Result data model -/

inductive MT
  | exact
  | fuzzy
deriving DecidableEq

structure Ctx where
  before : List Char
  found : List Char
  after : List Char
deriving DecidableEq

/-- The 4-tuple returned by `check_text_on_page`:
`(text_found, error_message, match_type, context)`. -/
structure MatchRes where
  found : Bool
  errorMessage : Option (List Char)
  matchType : Option MT
  context : Option Ctx
deriving DecidableEq

inductive MatchOutcome
  | NOT_FOUND
  | EXACT
  | FUZZY
deriving DecidableEq

/-- Classification of a result as reported by the callers of
`check_text_on_page` (`exact match` / `fuzzy match` / not found). -/
def outcomeOf (r : MatchRes) : MatchOutcome :=
  if r.found then
    (if r.matchType = some MT.exact then MatchOutcome.EXACT else MatchOutcome.FUZZY)
  else MatchOutcome.NOT_FOUND

/-! ### Position-mapping heuristics -/

/-- The scan of lines 342–368: walk every start offset of the original
text, clean the window `page_text[i : i + 3*len(cleaned_search_text)]`,
and record the offset whose cleaned window best extends the first (up
to) three cleaned needle words, stopping early on a full match of those
words.  Returns `best_match_pos` (`none` for `-1`). -/
def commonPrefCount : List (List Char) → List (List Char) → Nat
  | [], _ => 0
  | _ :: _, [] => 0
  | a :: as_, b :: bs => if a = b then commonPrefCount as_ bs + 1 else 0

def fullCleanedLoopF (page_text cs : List Char) (sw : List (List Char))
    (pattern : List Char) : Nat → Nat → Nat → Option Nat → Option Nat
  | 0, _, _, bestPos => bestPos
  | fuel + 1, i, bestScore, bestPos =>
    if i < page_text.length then
      let fragment := slice page_text i (i + cs.length * 3)
      if fragment = [] then
        fullCleanedLoopF page_text cs sw pattern fuel (i + 1) bestScore bestPos
      else
        let cf := clean_text_for_search fragment false
        if startsList pattern cf then
          let mc := commonPrefCount sw (splitWs cf)
          if mc > bestScore then
            if mc = sw.length then some i
            else fullCleanedLoopF page_text cs sw pattern fuel (i + 1) mc (some i)
          else fullCleanedLoopF page_text cs sw pattern fuel (i + 1) bestScore bestPos
        else fullCleanedLoopF page_text cs sw pattern fuel (i + 1) bestScore bestPos
    else bestPos

def fullCleanedScan (page_text cs : List Char) : Option Nat :=
  let search_words := (splitWs cs).take 3
  fullCleanedLoopF page_text cs search_words (joinWs search_words)
    page_text.length 0 0 none

/-- Context construction for the level-1 "full cleaned substring" match
(lines 370–380). -/
def fullCleanedCtx (page_text cs : List Char) : Option Ctx :=
  match fullCleanedScan page_text cs with
  | some best_match_pos =>
    let c := extract_context page_text best_match_pos cs.length
      CONTEXT_WORDS_BEFORE CONTEXT_WORDS_AFTER
    some ⟨c.1, c.2.1, c.2.2⟩
  | none => none

/-- Context construction for a successful sequence match (lines 434–456
and 542–565): find the first case-insensitive occurrence of the first
matched word in the original text and report a window of twice the
length of the matched words joined by single spaces. -/
def seqCtx (page_text : List Char) (fs : List (List Char)) (sp : Option Nat) : Option Ctx :=
  match sp, fs with
  | some _, first_word :: _ =>
    match findSub (lowerL page_text) (lowerL first_word) with
    | some original_position =>
      let match_length := (joinWs fs).length * 2
      let c := extract_context page_text original_position match_length
        CONTEXT_WORDS_BEFORE CONTEXT_WORDS_AFTER
      some ⟨c.1, c.2.1, c.2.2⟩
    | none => none
  | _, _ => none

/-! ### The classification pipeline of `check_text_on_page` -/

/-- Level 1 (cleaning keeps digits, lines 324–460): first the full
cleaned-substring check, then the gapped word-sequence matcher.
Returns `none` when level 1 leaves `text_found` false. -/
def level1 (page_text cs cp : List Char) : Option MatchRes :=
  match findSub cp cs with
  | some _ => some ⟨true, none, some MT.fuzzy, fullCleanedCtx page_text cs⟩
  | none =>
    if 2 ≤ (splitWs cs).length then
      let r := seqMatchG (splitWs cs) (splitWs cp) MAX_WORDS_BETWEEN
      if seqSuccess r.1 (splitWs cs) then
        some ⟨true, none, some MT.fuzzy, seqCtx page_text r.1 r.2⟩
      else none
    else none

/-- Level 2 (cleaning strips digits, lines 462–565).  Unlike level 1,
`match_type` is set to `'fuzzy'` only when the position mapping back
into the original text succeeds. -/
def level2 (page_text text_to_find : List Char) : Option MatchRes :=
  let cs2 := clean_text_for_search text_to_find true
  let cp2 := clean_text_for_search page_text true
  if cs2 ≠ [] ∧ MIN_FUZZY_TEXT_LENGTH < cs2.length then
    match findSub cp2 cs2 with
    | some cleaned_position =>
      match splitWs cs2 with
      | first_word :: _ =>
        let approx_start := cleaned_position - 100
        let search_area := page_text.drop approx_start
        (match findSub (lowerL search_area) (lowerL first_word) with
        | some op =>
          let original_position := op + approx_start
          let c := extract_context page_text original_position cs2.length
            CONTEXT_WORDS_BEFORE CONTEXT_WORDS_AFTER
          some ⟨true, none, some MT.fuzzy, some ⟨c.1, c.2.1, c.2.2⟩⟩
        | none => some ⟨true, none, none, none⟩)
      | [] => some ⟨true, none, none, none⟩
    | none =>
      if 2 ≤ (splitWs cs2).length then
        let r := seqMatchG (splitWs cs2) (splitWs cp2) MAX_WORDS_BETWEEN
        if seqSuccess r.1 (splitWs cs2) then
          match seqCtx page_text r.1 r.2 with
          | some c => some ⟨true, none, some MT.fuzzy, some c⟩
          | none => some ⟨true, none, none, none⟩
        else none
      else none
  else none

/-- The matching core of `check_text_on_page` (lines 296–567), on page
text that was fetched successfully: exact substring search first, then
level 1, then level 2, else not found. -/
def matchCore (page_text text_to_find : List Char) : MatchRes :=
  let search_text := trim text_to_find
  match findSub page_text search_text with
  | some position =>
    let c := extract_context page_text position search_text.length
      CONTEXT_WORDS_BEFORE CONTEXT_WORDS_AFTER
    ⟨true, none, some MT.exact, some ⟨c.1, c.2.1, c.2.2⟩⟩
  | none =>
    let cs := clean_text_for_search text_to_find false
    let cp := clean_text_for_search page_text false
    if cs ≠ [] ∧ MIN_FUZZY_TEXT_LENGTH < cs.length then
      match level1 page_text cs cp with
      | some r => r
      | none =>
        match level2 page_text text_to_find with
        | some r => r
        | none => ⟨false, none, none, none⟩
    else ⟨false, none, none, none⟩

/-- `check_text_on_page` including the error channel: a failed fetch
(the `except` arms, lines 569–578) yields `(False, message, None, None)`
and no matching is performed. -/
def classifyFetch (fetch : Except (List Char) (List Char))
    (text_to_find : List Char) : MatchRes :=
  match fetch with
  | Except.error e => ⟨false, some e, none, none⟩
  | Except.ok page_text => matchCore page_text text_to_find

/-! ### Lemmas about `startsList`, `findSub` and `trim` -/

theorem startsList_iff {p l : List Char} : startsList p l = true ↔ ∃ t, l = p ++ t := by
  induction p generalizing l with
  | nil => simp [startsList]
  | cons a as_ ih =>
    cases l with
    | nil => simp [startsList]
    | cons b bs =>
      simp only [startsList, Bool.and_eq_true, decide_eq_true_eq, ih, List.cons_append,
        List.cons.injEq]
      constructor
      · rintro ⟨rfl, t, rfl⟩; exact ⟨t, rfl, rfl⟩
      · rintro ⟨t, rfl, rfl⟩; exact ⟨rfl, t, rfl⟩

theorem startsList_take {p l : List Char} (h : startsList p l = true) :
    l.take p.length = p := by
  obtain ⟨t, rfl⟩ := startsList_iff.mp h
  simp

theorem findSubAux_some {pat l : List Char} {i j : Nat}
    (h : findSubAux pat l i = some j) :
    ∃ k, j = i + k ∧ startsList pat (l.drop k) = true ∧
      ∀ m, m < k → startsList pat (l.drop m) = false := by
  induction l generalizing i with
  | nil =>
    unfold findSubAux at h
    split at h
    · rename_i hs
      injection h with h
      exact ⟨0, by omega, by simpa using hs, by omega⟩
    · exact absurd h (by simp)
  | cons c t ih =>
    unfold findSubAux at h
    split at h
    · rename_i hs
      injection h with h
      exact ⟨0, by omega, by simpa using hs, by omega⟩
    · rename_i hs
      obtain ⟨k, hk, hst, hmin⟩ := ih h
      refine ⟨k + 1, by omega, by simpa using hst, ?_⟩
      intro m hm
      cases m with
      | zero => simpa using hs
      | succ m' =>
        have := hmin m' (by omega)
        simpa using this

theorem findSub_some {hay pat : List Char} {i : Nat} (h : findSub hay pat = some i) :
    startsList pat (hay.drop i) = true ∧
      ∀ m, m < i → startsList pat (hay.drop m) = false := by
  obtain ⟨k, hk, hst, hmin⟩ := findSubAux_some h
  have : i = k := by omega
  subst this
  exact ⟨hst, hmin⟩

theorem findSubAux_none {pat l : List Char} {i : Nat}
    (h : findSubAux pat l i = none) :
    ∀ k, startsList pat (l.drop k) = false := by
  induction l generalizing i with
  | nil =>
    unfold findSubAux at h
    split at h
    · exact absurd h (by simp)
    · rename_i hs
      intro k
      simpa using Bool.of_not_eq_true hs
  | cons c t ih =>
    unfold findSubAux at h
    split at h
    · exact absurd h (by simp)
    · rename_i hs
      intro k
      cases k with
      | zero => simpa using Bool.of_not_eq_true hs
      | succ k' => simpa using ih h k'

theorem findSub_none {hay pat : List Char} (h : findSub hay pat = none) :
    ∀ k, startsList pat (hay.drop k) = false :=
  findSubAux_none h

/-- An occurrence of `pat` inside `hay` carries every occurrence inside
`pat` into `hay`. -/
theorem startsList_drop_trans {hay pat q : List Char} {i k : Nat}
    (h1 : startsList pat (hay.drop i) = true)
    (h2 : startsList q (pat.drop k) = true) :
    startsList q (hay.drop (i + k)) = true := by
  obtain ⟨t2, ht2⟩ := startsList_iff.mp h1
  obtain ⟨t1, ht1⟩ := startsList_iff.mp h2
  rw [startsList_iff]
  rw [← List.drop_drop, ht2, List.drop_append_eq_append_drop, ht1]
  exact ⟨t1 ++ t2.drop (k - pat.length), by simp⟩

/-- If `pat` occurs somewhere in `hay` then `findSub` finds it. -/
theorem findSub_isSome_of_occurs {hay pat : List Char} {k : Nat}
    (h : startsList pat (hay.drop k) = true) : (findSub hay pat).isSome = true := by
  cases hf : findSub hay pat with
  | some i => rfl
  | none => exact absurd h (by simp [findSub_none hf k])

theorem dropWhile_idem (p : Char → Bool) (l : List Char) :
    (l.dropWhile p).dropWhile p = l.dropWhile p := by
  induction l with
  | nil => simp [List.dropWhile]
  | cons a t ih =>
    by_cases h : p a
    · simpa [List.dropWhile, h] using ih
    · simp [List.dropWhile, h]

theorem trimLeft_idem (l : List Char) : trimLeft (trimLeft l) = trimLeft l :=
  dropWhile_idem _ l

theorem trimRight_idem (l : List Char) : trimRight (trimRight l) = trimRight l := by
  unfold trimRight
  rw [List.reverse_reverse, dropWhile_idem]

/-- The trailing part removed by `trimRight` is all whitespace:
`l = trimRight l ++ t` with `t` whitespace. -/
theorem trimRight_append (l : List Char) :
    ∃ t, (∀ c ∈ t, isSpaceChar c = true) ∧ l = trimRight l ++ t := by
  refine ⟨(l.reverse.takeWhile isSpaceChar).reverse, ?_, ?_⟩
  · intro c hc
    rw [List.mem_reverse] at hc
    exact List.mem_takeWhile_imp hc
  · unfold trimRight
    rw [← List.reverse_append, List.takeWhile_append_dropWhile, List.reverse_reverse]

/-- A list unchanged by `trimLeft` has a non-whitespace head (or is empty). -/
theorem trimLeft_fixed_head {c : Char} {r : List Char}
    (h : trimLeft (c :: r) = c :: r) : isSpaceChar c = false := by
  by_contra hc
  have hc' : isSpaceChar c = true := by
    cases hcc : isSpaceChar c
    · exact absurd hcc hc
    · rfl
  unfold trimLeft at h
  rw [List.dropWhile_cons_of_pos hc'] at h
  have := congrArg List.length h
  have h2 := length_dropWhile_le' isSpaceChar r
  simp only [List.length_cons] at this
  omega

theorem trimLeft_of_trimRight_of_fixed {l : List Char} (h : trimLeft l = l) :
    trimLeft (trimRight l) = trimRight l := by
  obtain ⟨t, _, hl⟩ := trimRight_append l
  cases htr : trimRight l with
  | nil => rfl
  | cons c r =>
    have hl' : l = c :: (r ++ t) := by rw [hl, htr]; simp
    have hhead : isSpaceChar c = false := trimLeft_fixed_head (by rw [← hl']; exact h)
    unfold trimLeft
    rw [List.dropWhile_cons_of_neg (by simp [hhead])]

theorem trim_idem (l : List Char) : trim (trim l) = trim l := by
  unfold trim
  rw [trimLeft_of_trimRight_of_fixed (trimLeft_idem l), trimRight_idem]

theorem findSub_nil_pat (hay : List Char) : findSub hay [] = some 0 := by
  cases hay <;> rfl

/-- The slice of the haystack at a `findSub`-reported occurrence is the
pattern itself. -/
theorem slice_at_findSub {hay pat : List Char} {i : Nat}
    (h : findSub hay pat = some i) : slice hay i (i + pat.length) = pat := by
  have h1 := (findSub_some h).1
  unfold slice
  rw [Nat.add_sub_cancel_left]
  exact startsList_take h1

/-! ### Claim theorems -/

/-- C1: whenever the trimmed needle occurs literally in the haystack,
`check_text_on_page` classifies the pair EXACT, the reported context's
`found` field is exactly the trimmed needle, and no error is reported;
the normalization/fuzzy stages are the `none` arm of the substring
search and are never reached. -/
theorem claim_C1 (page needle : List Char) (pos : Nat)
    (h : findSub page (trim needle) = some pos) :
    (matchCore page needle).found = true ∧
    (matchCore page needle).errorMessage = none ∧
    (matchCore page needle).matchType = some MT.exact ∧
    outcomeOf (matchCore page needle) = MatchOutcome.EXACT ∧
    ∃ c, (matchCore page needle).context = some c ∧ c.found = trim needle := by
  have hcore : matchCore page needle =
      ⟨true, none, some MT.exact,
        some ⟨(extract_context page pos (trim needle).length
                CONTEXT_WORDS_BEFORE CONTEXT_WORDS_AFTER).1,
              (extract_context page pos (trim needle).length
                CONTEXT_WORDS_BEFORE CONTEXT_WORDS_AFTER).2.1,
              (extract_context page pos (trim needle).length
                CONTEXT_WORDS_BEFORE CONTEXT_WORDS_AFTER).2.2⟩⟩ := by
    unfold matchCore
    simp only [h]
  rw [hcore]
  refine ⟨rfl, rfl, rfl, rfl, ⟨_, rfl, ?_⟩⟩
  show trim (slice page pos (pos + (trim needle).length)) = trim needle
  rw [slice_at_findSub h, trim_idem]

theorem claim_C1_witness :
    findSub ("Welcome to our annual spring sale event").toList
        (trim ("spring sale event").toList) = some 22 ∧
      (matchCore ("Welcome to our annual spring sale event").toList
          ("spring sale event").toList).found = true ∧
      (matchCore ("Welcome to our annual spring sale event").toList
          ("spring sale event").toList).errorMessage = none ∧
      (matchCore ("Welcome to our annual spring sale event").toList
          ("spring sale event").toList).matchType = some MT.exact ∧
      outcomeOf (matchCore ("Welcome to our annual spring sale event").toList
          ("spring sale event").toList) = MatchOutcome.EXACT ∧
      ∃ c, (matchCore ("Welcome to our annual spring sale event").toList
          ("spring sale event").toList).context = some c ∧
        c.found = trim ("spring sale event").toList := by
  refine ⟨by decide, ?_⟩
  exact claim_C1 _ _ 22 (by decide)

/-- C9: an all-whitespace needle strips to the empty string, the
substring search finds it at position 0, and the classification is
EXACT with an empty `found` context — never NOT_FOUND. -/
theorem claim_C9 (page needle : List Char) (h : trim needle = []) :
    findSub page (trim needle) = some 0 ∧
    (matchCore page needle).found = true ∧
    (matchCore page needle).matchType = some MT.exact ∧
    outcomeOf (matchCore page needle) = MatchOutcome.EXACT ∧
    ∃ c, (matchCore page needle).context = some c ∧ c.found = [] := by
  have hf : findSub page (trim needle) = some 0 := by
    rw [h]; exact findSub_nil_pat page
  obtain ⟨h1, h2, h3, h4, c, hc, hfound⟩ := claim_C1 page needle 0 hf
  exact ⟨hf, h1, h3, h4, c, hc, by rwa [h] at hfound⟩

theorem claim_C9_witness :
    trim ("   ").toList = [] ∧
      findSub ("xyz").toList (trim ("   ").toList) = some 0 ∧
      (matchCore ("xyz").toList ("   ").toList).found = true ∧
      (matchCore ("xyz").toList ("   ").toList).matchType = some MT.exact ∧
      outcomeOf (matchCore ("xyz").toList ("   ").toList) = MatchOutcome.EXACT ∧
      ∃ c, (matchCore ("xyz").toList ("   ").toList).context = some c ∧
        c.found = [] := by
  refine ⟨by decide, ?_⟩
  exact claim_C9 _ _ (by decide)

/-- C2: the single-step behaviour of the gapped sequence matcher — on
token equality both cursors advance, the match is recorded and the gap
counter resets; on inequality only the haystack cursor advances and the
gap counter increments; once it would exceed `maxGap` the in-progress
match (needle cursor, recorded list, gap counter) is discarded and
scanning restarts at the haystack's current position; the loop stops
when either sequence is exhausted.  On needle tokens `[a,c,e]` and
haystack tokens `[a,b,c,d,e]` with `maxGap = 1` all three words are
found in order, the ratio is 1.0, the default floor of 3 words is met,
and the full classification of `"a c e"` against `"a b c d e"` is FUZZY. -/
theorem claim_C2 :
    (∀ (allS : List (List Char)) (g : Nat) (s : List Char) (sw : List (List Char))
        (p : List Char) (pw : List (List Char)) (i : Nat) (fs : List (List Char))
        (sp : Option Nat) (k : Nat),
      seqLoop allS g (s :: sw) (p :: pw) i fs sp k =
        if s = p then
          seqLoop allS g sw pw (i + 1) (fs ++ [s]) (if sp = none then some i else sp) 0
        else if k + 1 > g then
          seqLoop allS g allS pw (i + 1) [] none 0
        else
          seqLoop allS g (s :: sw) pw (i + 1) fs sp (k + 1)) ∧
    (∀ (allS : List (List Char)) (g : Nat) (sw : List (List Char)) (i : Nat)
        (fs : List (List Char)) (sp : Option Nat) (k : Nat),
      seqLoop allS g sw [] i fs sp k = (fs, sp)) ∧
    (∀ (allS : List (List Char)) (g : Nat) (p : List Char) (pw : List (List Char))
        (i : Nat) (fs : List (List Char)) (sp : Option Nat) (k : Nat),
      seqLoop allS g [] (p :: pw) i fs sp k = (fs, sp)) ∧
    (seqMatchG [['a'], ['c'], ['e']] [['a'], ['b'], ['c'], ['d'], ['e']] 1).1 =
      [['a'], ['c'], ['e']] ∧
    matchRatioOf (seqMatchG [['a'], ['c'], ['e']] [['a'], ['b'], ['c'], ['d'], ['e']] 1).1
      [['a'], ['c'], ['e']] = 1 ∧
    MIN_WORDS_IN_SEQUENCE = 3 ∧
    seqSuccess (seqMatchG [['a'], ['c'], ['e']] [['a'], ['b'], ['c'], ['d'], ['e']] 1).1
      [['a'], ['c'], ['e']] ∧
    outcomeOf (matchCore ("a b c d e").toList ("a c e").toList) = MatchOutcome.FUZZY := by
  have hfs : (seqMatchG [['a'], ['c'], ['e']] [['a'], ['b'], ['c'], ['d'], ['e']] 1).1 =
      [['a'], ['c'], ['e']] := by decide
  refine ⟨?_, ?_, ?_, hfs, ?_, rfl, by decide, by decide⟩
  · intro allS g s sw p pw i fs sp k
    rfl
  · intro allS g sw i fs sp k
    cases sw <;> rfl
  · intro allS g p pw i fs sp k
    rfl
  · rw [hfs]
    norm_num [matchRatioOf]

/-- C3: the sequence matcher's acceptance test is exactly
`matchRatio ≥ 0.7 (MIN_MATCH_RATIO) AND |foundWords| ≥ 3
(MIN_WORDS_IN_SEQUENCE)`; a needle of exactly three cleaned tokens
classifies FUZZY when all three are matched in order
(`"p q r"` in `"p x q y r"`) and NOT_FOUND when only two are matched
(`"p q r"` in `"p x q"`). -/
theorem claim_C3 :
    (∀ fs sw : List (List Char),
      seqSuccess fs sw ↔ (7 : ℚ) / 10 ≤ matchRatioOf fs sw ∧ 3 ≤ fs.length) ∧
    minMatchRatioQ = 7 / 10 ∧
    MIN_WORDS_IN_SEQUENCE = 3 ∧
    (splitWs (clean_text_for_search ("p q r").toList false)).length = 3 ∧
    (seqMatchG (splitWs ("p q r").toList) (splitWs ("p x q y r").toList)
      MAX_WORDS_BETWEEN).1.length = 3 ∧
    outcomeOf (matchCore ("p x q y r").toList ("p q r").toList) = MatchOutcome.FUZZY ∧
    (seqMatchG (splitWs ("p q r").toList) (splitWs ("p x q").toList)
      MAX_WORDS_BETWEEN).1.length = 2 ∧
    outcomeOf (matchCore ("p x q").toList ("p q r").toList) = MatchOutcome.NOT_FOUND := by
  exact ⟨fun fs sw => Iff.rfl, rfl, rfl, by decide, by decide, by decide, by decide, by decide⟩

/-- C4 counterexample: for needle tokens `[a,b]` and haystack tokens
`[a,x,x,a,b]`, raising `maxGap` from 1 to 2 strictly DECREASES the
match ratio (from 1 to 0): with `maxGap = 1` the matcher restarts after
the two noise words and re-finds `a b`, while with `maxGap = 2` it stays
committed to the stale partial match and finds nothing. -/
theorem claim_C4_counterexample :
    ¬ (matchRatioOf (seqMatchG [['a'], ['b']] [['a'], ['x'], ['x'], ['a'], ['b']] 1).1
        [['a'], ['b']] ≤
      matchRatioOf (seqMatchG [['a'], ['b']] [['a'], ['x'], ['x'], ['a'], ['b']] 2).1
        [['a'], ['b']]) := by
  have h1 : (seqMatchG [['a'], ['b']] [['a'], ['x'], ['x'], ['a'], ['b']] 1).1 =
      [['a'], ['b']] := by decide
  have h2 : (seqMatchG [['a'], ['b']] [['a'], ['x'], ['x'], ['a'], ['b']] 2).1 = [] := by
    decide
  rw [h1, h2]
  norm_num [matchRatioOf]

/-- C4 (amended): the match ratio is NOT monotone in `maxGap`: for fixed
inputs an increase of `maxGap` can strictly increase the ratio (needle
`[a,b]`, haystack `[a,x,b]`, gap 0 → 1) and can also strictly decrease
it (needle `[a,b]`, haystack `[a,x,x,a,b]`, gap 1 → 2), because the
restart-on-overflow policy is lost when the gap allowance grows. -/
theorem claim_C4_amended :
    matchRatioOf (seqMatchG [['a'], ['b']] [['a'], ['x'], ['b']] 0).1 [['a'], ['b']] <
      matchRatioOf (seqMatchG [['a'], ['b']] [['a'], ['x'], ['b']] 1).1 [['a'], ['b']] ∧
    matchRatioOf (seqMatchG [['a'], ['b']] [['a'], ['x'], ['x'], ['a'], ['b']] 2).1
        [['a'], ['b']] <
      matchRatioOf (seqMatchG [['a'], ['b']] [['a'], ['x'], ['x'], ['a'], ['b']] 1).1
        [['a'], ['b']] := by
  have h1 : (seqMatchG [['a'], ['b']] [['a'], ['x'], ['b']] 0).1 = [] := by decide
  have h2 : (seqMatchG [['a'], ['b']] [['a'], ['x'], ['b']] 1).1 = [['a'], ['b']] := by
    decide
  have h3 : (seqMatchG [['a'], ['b']] [['a'], ['x'], ['x'], ['a'], ['b']] 2).1 = [] := by
    decide
  have h4 : (seqMatchG [['a'], ['b']] [['a'], ['x'], ['x'], ['a'], ['b']] 1).1 =
      [['a'], ['b']] := by decide
  rw [h1, h2, h3, h4]
  norm_num [matchRatioOf]

/-! ### Branch-shape lemmas for the pipeline -/

theorem level1_found {page cs cp : List Char} {r : MatchRes}
    (h : level1 page cs cp = some r) :
    r.found = true ∧ r.errorMessage = none ∧ r.matchType ≠ some MT.exact := by
  simp only [level1] at h
  split at h
  · cases h; exact ⟨rfl, rfl, by simp⟩
  · split at h
    · split at h
      · cases h; exact ⟨rfl, rfl, by simp⟩
      · exact absurd h (by simp)
    · exact absurd h (by simp)

theorem level2_found {page needle : List Char} {r : MatchRes}
    (h : level2 page needle = some r) :
    r.found = true ∧ r.errorMessage = none ∧ r.matchType ≠ some MT.exact := by
  simp only [level2] at h
  split at h
  · split at h
    · split at h
      · split at h
        · cases h; exact ⟨rfl, rfl, by simp⟩
        · cases h; exact ⟨rfl, rfl, by simp⟩
      · cases h; exact ⟨rfl, rfl, by simp⟩
    · split at h
      · split at h
        · split at h
          · cases h; exact ⟨rfl, rfl, by simp⟩
          · cases h; exact ⟨rfl, rfl, by simp⟩
        · exact absurd h (by simp)
      · exact absurd h (by simp)
  · exact absurd h (by simp)

/-- Every result of the matching core either reports a find with no
error message, or is the literal `(False, None, None, None)` record. -/
theorem matchCore_shape (page needle : List Char) :
    ((matchCore page needle).found = true ∧
      (matchCore page needle).errorMessage = none) ∨
    matchCore page needle = ⟨false, none, none, none⟩ := by
  simp only [matchCore]
  split
  · exact Or.inl ⟨rfl, rfl⟩
  · split
    · split
      · rename_i r hr
        exact Or.inl ⟨(level1_found hr).1, (level1_found hr).2.1⟩
      · split
        · rename_i r hr
          exact Or.inl ⟨(level2_found hr).1, (level2_found hr).2.1⟩
        · exact Or.inr rfl
    · exact Or.inr rfl

/-- C7 counterexample: haystack `"abc [0123456789012345] de"` with
needle `"abc, de"` — the cleaned needle `"abc de"` IS a substring of
the cleaned haystack, so the outcome is FUZZY with no error, yet the
back-mapping scan finds no original-text window whose cleaning starts
with the needle words (the bracketed span is longer than the scan
window), so NO context is produced: "context present iff outcome ≠
NOT_FOUND and no error" fails in the only-if direction. -/
theorem claim_C7_counterexample :
    (matchCore ("abc [0123456789012345] de").toList ("abc, de").toList).found = true ∧
    (matchCore ("abc [0123456789012345] de").toList
      ("abc, de").toList).errorMessage = none ∧
    outcomeOf (matchCore ("abc [0123456789012345] de").toList ("abc, de").toList) =
      MatchOutcome.FUZZY ∧
    (matchCore ("abc [0123456789012345] de").toList ("abc, de").toList).context =
      none := by
  decide

/-- C7 (amended): an upstream fetch failure is propagated as an
`errorMessage` with no matching performed and no context; the matching
core itself never produces an error message; and a present context
implies a non-NOT_FOUND outcome with no error.  The converse of the
last implication — the "iff" of the original claim — is false: a fuzzy
match whose position cannot be mapped back to the original text carries
no context (see the counterexample). -/
theorem claim_C7_amended :
    (∀ e needle : List Char,
      classifyFetch (Except.error e) needle = ⟨false, some e, none, none⟩) ∧
    (∀ page needle : List Char, (matchCore page needle).errorMessage = none) ∧
    (∀ page needle : List Char, (matchCore page needle).context.isSome = true →
      outcomeOf (matchCore page needle) ≠ MatchOutcome.NOT_FOUND ∧
      (matchCore page needle).errorMessage = none) ∧
    (∀ page needle : List Char, (matchCore page needle).found = false →
      (matchCore page needle).context = none) := by
  refine ⟨fun e needle => rfl, ?_, ?_, ?_⟩
  · intro page needle
    rcases matchCore_shape page needle with ⟨_, h2⟩ | h
    · exact h2
    · rw [h]
  · intro page needle hctx
    rcases matchCore_shape page needle with ⟨h1, h2⟩ | h
    · refine ⟨?_, h2⟩
      unfold outcomeOf
      rw [h1, if_pos rfl]
      split <;> simp
    · rw [h] at hctx
      exact absurd hctx (by simp)
  · intro page needle hnf
    rcases matchCore_shape page needle with ⟨h1, _⟩ | h
    · rw [h1] at hnf; exact absurd hnf (by simp)
    · rw [h]

theorem claim_C7_witness :
    outcomeOf (matchCore ("hello world").toList ("world").toList) ≠
      MatchOutcome.NOT_FOUND ∧
    (matchCore ("hello world").toList ("world").toList).errorMessage = none :=
  claim_C7_amended.2.2.1 ("hello world").toList ("world").toList (by decide)

/-! ### Equations and occurrence lemmas for `splitWs` -/

theorem splitWsAux_acc_ne (t : List Char) : ∀ acc : List Char, acc ≠ [] →
    splitWsAux t acc = (acc.reverse ++ t.takeWhile (fun x => !isSpaceChar x)) ::
      splitWsAux (t.dropWhile (fun x => !isSpaceChar x)) [] := by
  induction t with
  | nil =>
    intro acc hacc
    simp [splitWsAux, hacc]
  | cons c t ih =>
    intro acc hacc
    by_cases hc : isSpaceChar c = true
    · have h1 : splitWsAux (c :: t) acc = acc.reverse :: splitWsAux t [] := by
        simp [splitWsAux, hc, hacc]
      have h2 : (c :: t).takeWhile (fun x => !isSpaceChar x) = [] := by
        simp [List.takeWhile, hc]
      have h3 : (c :: t).dropWhile (fun x => !isSpaceChar x) = c :: t := by
        simp [List.dropWhile, hc]
      rw [h1, h2, h3]
      simp [splitWsAux, hc]
    · have hc' : isSpaceChar c = false := by
        cases h : isSpaceChar c
        · rfl
        · exact absurd h hc
      have h1 : splitWsAux (c :: t) acc = splitWsAux t (c :: acc) := by
        simp [splitWsAux, hc']
      have h2 : (c :: t).takeWhile (fun x => !isSpaceChar x) =
          c :: t.takeWhile (fun x => !isSpaceChar x) := by
        simp [List.takeWhile, hc']
      have h3 : (c :: t).dropWhile (fun x => !isSpaceChar x) =
          t.dropWhile (fun x => !isSpaceChar x) := by
        simp [List.dropWhile, hc']
      rw [h1, ih (c :: acc) (by simp), h2, h3]
      simp

theorem splitWs_cons_space {c : Char} {t : List Char} (h : isSpaceChar c = true) :
    splitWs (c :: t) = splitWs t := by
  simp [splitWs, splitWsAux, h]

theorem splitWs_cons_word {c : Char} {t : List Char} (h : isSpaceChar c = false) :
    splitWs (c :: t) = (c :: t.takeWhile (fun x => !isSpaceChar x)) ::
      splitWs (t.dropWhile (fun x => !isSpaceChar x)) := by
  show splitWsAux (c :: t) [] = _
  have h1 : splitWsAux (c :: t) [] = splitWsAux t [c] := by
    simp [splitWsAux, h]
  rw [h1, splitWsAux_acc_ne t [c] (by simp)]
  rfl

theorem startsList_takeWhile_self (q : Char → Bool) (l : List Char) :
    startsList (l.takeWhile q) l = true :=
  startsList_iff.mpr ⟨l.dropWhile q, (List.takeWhile_append_dropWhile q l).symm⟩

theorem dropWhile_eq_drop (q : Char → Bool) (l : List Char) :
    l.dropWhile q = l.drop (l.takeWhile q).length := by
  have h2 := congrArg (List.drop (l.takeWhile q).length)
    (List.takeWhile_append_dropWhile (p := q) (l := l))
  rw [List.drop_left] at h2
  exact h2

/-- Every word produced by `splitWs` occurs literally in the input. -/
theorem mem_splitWs_occurs : ∀ (l w : List Char), w ∈ splitWs l →
    ∃ i, startsList w (l.drop i) = true
  | [], w, h => by simp [splitWs, splitWsAux] at h
  | c :: t, w, h => by
    by_cases hc : isSpaceChar c = true
    · rw [splitWs_cons_space hc] at h
      obtain ⟨i, hi⟩ := mem_splitWs_occurs t w h
      exact ⟨i + 1, by simpa using hi⟩
    · have hc' : isSpaceChar c = false := by
        cases hh : isSpaceChar c
        · rfl
        · exact absurd hh hc
      rw [splitWs_cons_word hc'] at h
      rcases List.mem_cons.mp h with rfl | hmem
      · refine ⟨0, ?_⟩
        simp only [List.drop_zero]
        show startsList (c :: t.takeWhile (fun x => !isSpaceChar x)) (c :: t) = true
        simp [startsList, startsList_takeWhile_self]
      · obtain ⟨i, hi⟩ :=
          mem_splitWs_occurs (t.dropWhile (fun x => !isSpaceChar x)) w hmem
        refine ⟨(t.takeWhile (fun x => !isSpaceChar x)).length + i + 1, ?_⟩
        rw [List.drop_succ_cons, ← List.drop_drop, ← dropWhile_eq_drop]
        exact hi
termination_by l _ _ => l.length
decreasing_by
  · simp only [List.length_cons]; omega
  · simp only [List.length_cons]
    exact Nat.lt_succ_of_le (length_dropWhile_le' _ _)

/-- If the first needle token never occurs among the haystack tokens,
the sequence matcher ends with an empty `found_sequence` (every mismatch
either skips or restarts, and a restart re-exposes the same first
token). -/
theorem seqLoop_head_unmatched (a : List Char) (sw0 : List (List Char)) (g : Nat) :
    ∀ pw : List (List Char), (∀ p ∈ pw, p ≠ a) →
      ∀ (sw : List (List Char)) (pidx k : Nat),
        seqLoop (a :: sw0) g (a :: sw) pw pidx [] none k = ([], none) := by
  intro pw
  induction pw with
  | nil => intro _ sw pidx k; rfl
  | cons p pw ih =>
    intro hmem sw pidx k
    have hne : ¬ (a = p) := fun hh => (hmem p (List.mem_cons_self p pw)) hh.symm
    have hmem' : ∀ q ∈ pw, q ≠ a := fun q hq => hmem q (List.mem_cons_of_mem p hq)
    simp only [seqLoop, hne, if_false, reduceIte]
    split
    · exact ih hmem' sw0 (pidx + 1) 0
    · exact ih hmem' sw (pidx + 1) (k + 1)

/-- C10: for every sequence-matcher fuzzy match (level 1 and level 2
both build their context through `seqCtx`), the reported excerpt starts
at the FIRST case-insensitive occurrence of the first matched word
anywhere in the original haystack, and the length of the window handed
to the context extractor is exactly twice the character length of the
matched words joined by single spaces, clamped at the end of the text
by slicing.  Consequently the excerpt need not contain all matched
words: for haystack `"apple x p y q z r"` and needle `"p, q, r"` the
matched words are `p,q,r` but the excerpt `"pple x p y"` (anchored at
the `p` inside `apple`) contains neither `q` nor `r`. -/
theorem claim_C10 :
    (∀ (page w : List Char) (rest : List (List Char)) (spv : Nat) (c : Ctx),
      seqCtx page (w :: rest) (some spv) = some c →
      ∃ p, findSub (lowerL page) (lowerL w) = some p ∧
        (∀ j, j < p → startsList (lowerL w) ((lowerL page).drop j) = false) ∧
        c.found = trim (slice page p (p + (joinWs (w :: rest)).length * 2))) ∧
    (matchCore ("apple x p y q z r").toList ("p, q, r").toList).context =
      some ⟨("a").toList, ("pple x p y").toList, ("q z r").toList⟩ ∧
    outcomeOf (matchCore ("apple x p y q z r").toList ("p, q, r").toList) =
      MatchOutcome.FUZZY ∧
    (seqMatchG (splitWs (clean_text_for_search ("p, q, r").toList false))
      (splitWs (clean_text_for_search ("apple x p y q z r").toList false))
      MAX_WORDS_BETWEEN).1 = [['p'], ['q'], ['r']] ∧
    findSub ("pple x p y").toList ['q'] = none ∧
    findSub ("pple x p y").toList ['r'] = none := by
  refine ⟨?_, by decide, by decide, by decide, by decide, by decide⟩
  intro page w rest spv c h
  simp only [seqCtx] at h
  cases hf : findSub (lowerL page) (lowerL w) with
  | none => rw [hf] at h; exact absurd h (by simp)
  | some p =>
    rw [hf] at h
    cases h
    exact ⟨p, rfl, fun j hj => (findSub_some hf).2 j hj, rfl⟩

theorem claim_C10_witness :
    ∃ p, findSub (lowerL ("apple x p y q z r").toList) (lowerL ['p']) = some p ∧
      (∀ j, j < p →
        startsList (lowerL ['p']) ((lowerL ("apple x p y q z r").toList).drop j) =
          false) ∧
      (Ctx.mk ("a").toList ("pple x p y").toList ("q z r").toList).found =
        trim (slice ("apple x p y q z r").toList p
          (p + (joinWs [['p'], ['q'], ['r']]).length * 2)) :=
  claim_C10.1 ("apple x p y q z r").toList ['p'] [['q'], ['r']] 2
    ⟨("a").toList, ("pple x p y").toList, ("q z r").toList⟩ (by decide)

/-- C5 counterexample: the haystack `"[Product Launch]"` contains
`"Product Launch"` literally and contains neither `"id42"` nor `"42"`,
yet the needle `"id42 Product Launch"` classifies NOT_FOUND — level-2
cleaning deletes the whole bracketed span from the haystack, so the
cleaned needle `"Product Launch"` is not found at any level.  The
universally quantified Scenario D of the spec is therefore false as
stated. -/
theorem claim_C5_counterexample :
    (findSub ("[Product Launch]").toList ("Product Launch").toList).isSome = true ∧
    findSub ("[Product Launch]").toList ("id42").toList = none ∧
    findSub ("[Product Launch]").toList ("42").toList = none ∧
    outcomeOf (matchCore ("[Product Launch]").toList
      ("id42 Product Launch").toList) = MatchOutcome.NOT_FOUND := by
  decide

/-- C5 (amended): level-2 cleaning maps the needle
`"id42 Product Launch"` to `"Product Launch"` (digit removal leaves the
fragment `"id"`, of length ≤ 2 and a prefix of the recorded
digit-bearing token `"id42"`, so it is dropped), while level-1 cleaning
leaves the needle unchanged.  For every haystack that contains no
`"42"`, whose level-1 cleaned form contains no `"42"`, and whose
level-2 cleaned form contains `"Product Launch"` as a substring, the
classification is FUZZY, reached at level 2 and not at level 1 (level 1
returns nothing: its substring check would need `"42"` and its sequence
matcher never matches the token `"id42"`).  The extra cleanliness
hypotheses are needed because bracket-tag rewriting can manufacture new
`"42"` occurrences during cleaning; the unqualified Scenario D is
refuted by the counterexample. -/
theorem claim_C5_amended (hay : List Char)
    (h42 : findSub hay ("42").toList = none)
    (h42c : findSub (clean_text_for_search hay false) ("42").toList = none)
    (hPL : (findSub (clean_text_for_search hay true)
      ("Product Launch").toList).isSome = true) :
    clean_text_for_search ("id42 Product Launch").toList true =
      ("Product Launch").toList ∧
    clean_text_for_search ("id42 Product Launch").toList false =
      ("id42 Product Launch").toList ∧
    findSub hay (trim ("id42 Product Launch").toList) = none ∧
    level1 hay (clean_text_for_search ("id42 Product Launch").toList false)
      (clean_text_for_search hay false) = none ∧
    (level2 hay ("id42 Product Launch").toList).isSome = true ∧
    (matchCore hay ("id42 Product Launch").toList).found = true ∧
    outcomeOf (matchCore hay ("id42 Product Launch").toList) =
      MatchOutcome.FUZZY := by
  have hcs : clean_text_for_search ("id42 Product Launch").toList false =
      ("id42 Product Launch").toList := by decide
  have hcs2 : clean_text_for_search ("id42 Product Launch").toList true =
      ("Product Launch").toList := by decide
  have htrim : trim ("id42 Product Launch").toList =
      ("id42 Product Launch").toList := by decide
  -- "42" occurs at offset 2 of the needle
  have h42needle : startsList ("42").toList
      ((("id42 Product Launch").toList).drop 2) = true := by decide
  -- the exact search fails
  have hexact : findSub hay (trim ("id42 Product Launch").toList) = none := by
    rw [htrim]
    cases hf : findSub hay ("id42 Product Launch").toList with
    | none => rfl
    | some i =>
      exfalso
      have h1 := (findSub_some hf).1
      have h3 := startsList_drop_trans h1 h42needle
      have h4 := findSub_isSome_of_occurs h3
      rw [h42] at h4
      exact absurd h4 (by simp)
  -- the level-1 substring check fails
  have hsub1 : findSub (clean_text_for_search hay false)
      ("id42 Product Launch").toList = none := by
    cases hf : findSub (clean_text_for_search hay false)
        ("id42 Product Launch").toList with
    | none => rfl
    | some i =>
      exfalso
      have h1 := (findSub_some hf).1
      have h3 := startsList_drop_trans h1 h42needle
      have h4 := findSub_isSome_of_occurs h3
      rw [h42c] at h4
      exact absurd h4 (by simp)
  -- the token "id42" never occurs among the level-1 haystack tokens
  have hid42 : ∀ p ∈ splitWs (clean_text_for_search hay false),
      p ≠ ("id42").toList := by
    intro p hp hne
    subst hne
    obtain ⟨i, hi⟩ := mem_splitWs_occurs _ _ hp
    have h2 : startsList ("42").toList ((("id42").toList).drop 2) = true := by decide
    have h3 := startsList_drop_trans hi h2
    have h4 := findSub_isSome_of_occurs h3
    rw [h42c] at h4
    exact absurd h4 (by simp)
  have hsplit : splitWs ("id42 Product Launch").toList =
      ("id42").toList :: [("Product").toList, ("Launch").toList] := by decide
  -- the level-1 sequence matcher finds nothing
  have hseq : (seqMatchG (splitWs ("id42 Product Launch").toList)
      (splitWs (clean_text_for_search hay false)) MAX_WORDS_BETWEEN).1 = [] := by
    rw [hsplit]
    unfold seqMatchG
    rw [seqLoop_head_unmatched ("id42").toList [("Product").toList, ("Launch").toList]
      MAX_WORDS_BETWEEN (splitWs (clean_text_for_search hay false)) hid42
      [("Product").toList, ("Launch").toList] 0 0]
  have hl1 : level1 hay ("id42 Product Launch").toList
      (clean_text_for_search hay false) = none := by
    simp only [level1, hsub1]
    rw [if_pos (by rw [hsplit]; decide)]
    rw [if_neg]
    intro hcontra
    have h2 := hcontra.2
    rw [hseq] at h2
    simp [MIN_WORDS_IN_SEQUENCE] at h2
  -- level 2 finds the cleaned needle as a substring and reports a find
  obtain ⟨cpos, hcpos⟩ := Option.isSome_iff_exists.mp hPL
  have hl2 : ∃ r, level2 hay ("id42 Product Launch").toList = some r := by
    simp only [level2, hcs2]
    rw [if_pos (by decide)]
    rw [hcpos]
    have hsplit2 : splitWs ("Product Launch").toList =
        ("Product").toList :: [("Launch").toList] := by decide
    rw [hsplit2]
    dsimp only
    cases hfs : findSub (lowerL (hay.drop (cpos - 100))) (lowerL ("Product").toList) with
    | some op => exact ⟨_, rfl⟩
    | none => exact ⟨_, rfl⟩
  obtain ⟨r, hr⟩ := hl2
  have hrprops := level2_found hr
  have hcore : matchCore hay ("id42 Product Launch").toList = r := by
    simp only [matchCore, hexact, hcs]
    rw [if_pos (by exact ⟨by decide, by decide⟩)]
    rw [hl1, hr]
  refine ⟨hcs2, hcs, hexact, by rw [hcs]; exact hl1, by rw [hr]; rfl, ?_, ?_⟩
  · rw [hcore]; exact hrprops.1
  · rw [hcore]
    unfold outcomeOf
    rw [hrprops.1, if_pos rfl, if_neg hrprops.2.2]

theorem claim_C5_witness :
    clean_text_for_search ("id42 Product Launch").toList true =
      ("Product Launch").toList ∧
    level1 ("The Product Launch today").toList
      (clean_text_for_search ("id42 Product Launch").toList false)
      (clean_text_for_search ("The Product Launch today").toList false) = none ∧
    (level2 ("The Product Launch today").toList
      ("id42 Product Launch").toList).isSome = true ∧
    outcomeOf (matchCore ("The Product Launch today").toList
      ("id42 Product Launch").toList) = MatchOutcome.FUZZY := by
  have h := claim_C5_amended ("The Product Launch today").toList
    (by decide) (by decide) (by decide)
  exact ⟨h.1, h.2.2.2.1, h.2.2.2.2.1, h.2.2.2.2.2.2⟩

/-! ### Word-boundary counting for `extract_context` -/

/-- A whitespace-to-non-whitespace transition as seen by the backward
walk of `extract_context`: position `j` holds whitespace and `j - 1`
does not. -/
def backBoundary (text : List Char) (j : Nat) : Bool :=
  0 < j && isSpaceChar (text.getD j ' ') && !isSpaceChar (text.getD (j - 1) ' ')

/-- A whitespace-to-non-whitespace transition as seen by the forward
walk: position `j` holds whitespace and `j + 1` (still inside the text)
does not. -/
def fwdBoundary (text : List Char) (j : Nat) : Bool :=
  j + 1 < text.length && isSpaceChar (text.getD j ' ') && !isSpaceChar (text.getD (j + 1) ' ')

/-- Number of backward boundaries `j` with `s ≤ j < p` (second argument). -/
def backCount (text : List Char) (s : Nat) : Nat → Nat
  | 0 => 0
  | j + 1 => (if s ≤ j ∧ backBoundary text j = true then 1 else 0) + backCount text s j

/-- Number of forward boundaries `j` with `m ≤ j < e` (second argument). -/
def fwdCount (text : List Char) (m : Nat) : Nat → Nat
  | 0 => 0
  | j + 1 => (if m ≤ j ∧ fwdBoundary text j = true then 1 else 0) + fwdCount text m j

theorem backCount_of_le (text : List Char) : ∀ (n s : Nat), n ≤ s →
    backCount text s n = 0 := by
  intro n
  induction n with
  | zero => intro s _; rfl
  | succ j ih =>
    intro s hs
    unfold backCount
    rw [if_neg (by omega), ih s (by omega)]

theorem fwdCount_of_le (text : List Char) : ∀ (n m : Nat), n ≤ m →
    fwdCount text m n = 0 := by
  intro n
  induction n with
  | zero => intro m _; rfl
  | succ j ih =>
    intro m hm
    unfold fwdCount
    rw [if_neg (by omega), ih m (by omega)]

theorem fwdCount_left (text : List Char) : ∀ (r e : Nat),
    fwdCount text e r = fwdCount text (e + 1) r +
      (if e < r ∧ fwdBoundary text e = true then 1 else 0) := by
  intro r
  induction r with
  | zero =>
    intro e
    rw [fwdCount, fwdCount, if_neg (by omega)]
  | succ j ih =>
    intro e
    rcases Nat.lt_trichotomy e j with hlt | heq | hgt
    · unfold fwdCount
      rw [ih e]
      have h1 : e ≤ j := by omega
      have h2 : e + 1 ≤ j := by omega
      have h4 : e < j + 1 := by omega
      by_cases hb : fwdBoundary text j = true <;>
        by_cases hc : fwdBoundary text e = true <;>
        simp [hb, hc, h1, h2, hlt, h4] <;> omega
    · subst heq
      unfold fwdCount
      rw [fwdCount_of_le text e (e + 1) (by omega), ih e,
        fwdCount_of_le text e (e + 1) (by omega)]
      have hf1 : ¬ (e + 1 ≤ e) := by omega
      have hf2 : e < e + 1 := by omega
      have hf3 : e ≤ e := Nat.le_refl e
      have hf4 : ¬ (e < e) := by omega
      by_cases hb : fwdBoundary text e = true <;>
        simp [hb, hf1, hf2, hf3, hf4]
    · unfold fwdCount
      rw [fwdCount_of_le text j (e + 1) (by omega),
        fwdCount_of_le text j e (by omega),
        if_neg (by omega), if_neg (by omega), if_neg (by omega)]

theorem ctxStartLoop_le (text : List Char) (wb : Nat) :
    ∀ (start wc : Nat), ctxStartLoop text wb start wc ≤ start := by
  intro start
  induction start with
  | zero => intro wc; exact Nat.le_refl 0
  | succ s ih =>
    intro wc
    unfold ctxStartLoop
    split
    · exact Nat.le_succ_of_le (ih _)
    · exact Nat.le_refl _

theorem ctxStartLoop_count (text : List Char) (wb : Nat) :
    ∀ (start wc : Nat), wc ≤ wb →
      wc + backCount text (ctxStartLoop text wb start wc) start ≤ wb := by
  intro start
  induction start with
  | zero =>
    intro wc h
    simpa [ctxStartLoop, backCount] using h
  | succ s ih =>
    intro wc h
    by_cases hlt : wc < wb
    · have hred : ctxStartLoop text wb (s + 1) wc =
          ctxStartLoop text wb s
            (if backBoundary text s = true then wc + 1 else wc) := by
        simp only [ctxStartLoop, hlt, if_pos]
        rfl
      rw [hred]
      set wc' := if backBoundary text s = true then wc + 1 else wc with hwc'
      have hwcle : wc' ≤ wb := by
        rw [hwc']; split <;> omega
      have hih := ih wc' hwcle
      set r := ctxStartLoop text wb s wc' with hr
      have hrle : r ≤ s := ctxStartLoop_le text wb s wc'
      unfold backCount
      by_cases hb : backBoundary text s = true
      · rw [if_pos ⟨hrle, hb⟩]
        rw [if_pos hb] at hwc'
        omega
      · rw [if_neg (by tauto)]
        rw [if_neg hb] at hwc'
        omega
    · have hred : ctxStartLoop text wb (s + 1) wc = s + 1 := by
        simp [ctxStartLoop, hlt]
      rw [hred, backCount_of_le text (s + 1) (s + 1) (Nat.le_refl _)]
      omega

theorem ctxEndLoopF_ge (text : List Char) (wa : Nat) :
    ∀ (fuel e wc : Nat), e ≤ ctxEndLoopF text wa fuel e wc := by
  intro fuel
  induction fuel with
  | zero => intro e wc; exact Nat.le_refl e
  | succ f ih =>
    intro e wc
    unfold ctxEndLoopF
    split
    · exact Nat.le_trans (Nat.le_succ e) (ih (e + 1) _)
    · exact Nat.le_refl e

theorem ctxEndLoopF_le (text : List Char) (wa : Nat) :
    ∀ (fuel e wc : Nat), e ≤ text.length →
      ctxEndLoopF text wa fuel e wc ≤ text.length := by
  intro fuel
  induction fuel with
  | zero => intro e wc h; exact h
  | succ f ih =>
    intro e wc h
    unfold ctxEndLoopF
    split
    · rename_i hcond
      exact ih (e + 1) _ (by omega)
    · exact h

theorem ctxEndLoopF_count (text : List Char) (wa : Nat) :
    ∀ (fuel e wc : Nat), wc ≤ wa →
      wc + fwdCount text e (ctxEndLoopF text wa fuel e wc) ≤ wa := by
  intro fuel
  induction fuel with
  | zero =>
    intro e wc h
    rw [ctxEndLoopF, fwdCount_of_le text e e (Nat.le_refl e)]
    omega
  | succ f ih =>
    intro e wc h
    by_cases hcond : e < text.length ∧ wc < wa
    · have hred : ctxEndLoopF text wa (f + 1) e wc =
          ctxEndLoopF text wa f (e + 1)
            (if fwdBoundary text e = true then wc + 1 else wc) := by
        simp only [ctxEndLoopF, hcond, if_pos]
        rfl
      rw [hred]
      set wc' := if fwdBoundary text e = true then wc + 1 else wc with hwc'
      have hwcle : wc' ≤ wa := by
        rw [hwc']; split <;> omega
      have hih := ih (e + 1) wc' hwcle
      set r := ctxEndLoopF text wa f (e + 1) wc' with hr
      rw [fwdCount_left text r e]
      by_cases hb : fwdBoundary text e = true
      · rw [if_pos hb] at hwc'
        by_cases her : e < r
        · rw [if_pos ⟨her, hb⟩]; omega
        · rw [if_neg (by tauto)]; omega
      · rw [if_neg hb] at hwc'
        rw [if_neg (by tauto)]
        omega
    · have hred : ctxEndLoopF text wa (f + 1) e wc = e := by
        simp only [ctxEndLoopF]
        rw [if_neg hcond]
      rw [hred, fwdCount_of_le text e e (Nat.le_refl e)]
      omega

/-- C8: `extract_context` returns the trimmed slice
`text[position : position+match_length]` as `found`; `before` is the
trimmed text from a start boundary `s ≤ position` reached by crossing
at most `words_before` whitespace-to-non-whitespace transitions walking
backward (or the start of text); `after` spans analogously at most
`words_after` such transitions forward from `position + match_length`
to an end `e ≤ len(text)`; and the defaults are 20 words each way. -/
theorem claim_C8 (text : List Char)
    (position match_length words_before words_after : Nat)
    (h : position + match_length ≤ text.length) :
    ∃ s e,
      extract_context text position match_length words_before words_after =
        (trim (slice text s position),
          trim (slice text position (position + match_length)),
          trim (slice text (position + match_length) e)) ∧
      s ≤ position ∧
      backCount text s position ≤ words_before ∧
      position + match_length ≤ e ∧
      e ≤ text.length ∧
      fwdCount text (position + match_length) e ≤ words_after ∧
      CONTEXT_WORDS_BEFORE = 20 ∧ CONTEXT_WORDS_AFTER = 20 := by
  refine ⟨ctxStartLoop text words_before position 0,
    ctxEndLoop text words_after (position + match_length) 0, rfl,
    ctxStartLoop_le text words_before position 0, ?_, ?_, ?_, ?_, rfl, rfl⟩
  · have := ctxStartLoop_count text words_before position 0 (Nat.zero_le _)
    omega
  · exact ctxEndLoopF_ge text words_after _ _ 0
  · exact ctxEndLoopF_le text words_after _ _ 0 h
  · unfold ctxEndLoop
    have := ctxEndLoopF_count text words_after
      (text.length - (position + match_length)) (position + match_length) 0
      (Nat.zero_le _)
    omega

theorem claim_C8_witness :
    ∃ s e,
      extract_context ("one two three four").toList 8 5 1 1 =
        (trim (slice ("one two three four").toList s 8),
          trim (slice ("one two three four").toList 8 13),
          trim (slice ("one two three four").toList 13 e)) ∧
      s ≤ 8 ∧
      backCount ("one two three four").toList s 8 ≤ 1 ∧
      13 ≤ e ∧
      e ≤ ("one two three four").toList.length ∧
      fwdCount ("one two three four").toList 13 e ≤ 1 ∧
      CONTEXT_WORDS_BEFORE = 20 ∧ CONTEXT_WORDS_AFTER = 20 :=
  claim_C8 ("one two three four").toList 8 5 1 1 (by decide)

/-! ### Equations for `collapseWs`, `trim` and `splitWs` (idempotence) -/

theorem collapseWs_cons_nonspace {c : Char} {t : List Char}
    (h : isSpaceChar c = false) : collapseWs (c :: t) = c :: collapseWs t := by
  cases t with
  | nil => simp [collapseWs, h]
  | cons d t' => simp [collapseWs, h]

theorem collapseWs_cons_space {c : Char} (h : isSpaceChar c = true) :
    ∀ t : List Char, collapseWs (c :: t) = ' ' :: collapseWs (t.dropWhile isSpaceChar)
  | [] => by simp [collapseWs, h, List.dropWhile]
  | d :: t' => by
    by_cases hd : isSpaceChar d = true
    · rw [List.dropWhile, hd]
      show collapseWs (c :: d :: t') = ' ' :: collapseWs (t'.dropWhile isSpaceChar)
      rw [show collapseWs (c :: d :: t') = collapseWs (d :: t') by simp [collapseWs, h, hd]]
      exact collapseWs_cons_space hd t'
    · have hd' : isSpaceChar d = false := by
        cases hh : isSpaceChar d
        · rfl
        · exact absurd hh hd
      rw [List.dropWhile, hd']
      simp [collapseWs, h, hd']

theorem collapseWs_append_word : ∀ {u : List Char},
    (∀ x ∈ u, isSpaceChar x = false) → ∀ v : List Char,
      collapseWs (u ++ v) = u ++ collapseWs v
  | [], _, v => rfl
  | a :: u', h, v => by
    rw [List.cons_append,
      collapseWs_cons_nonspace (h a (List.mem_cons_self a u')),
      collapseWs_append_word (fun x hx => h x (List.mem_cons_of_mem a hx)) v,
      List.cons_append]

theorem collapseWs_all_space : ∀ {l : List Char},
    (∀ c ∈ l, isSpaceChar c = true) → collapseWs l = [] ∨ collapseWs l = [' ']
  | [], _ => Or.inl rfl
  | [a], h => by
    simp [collapseWs, h a (List.mem_cons_self a [])]
  | a :: b :: t, h => by
    have ha := h a (List.mem_cons_self a (b :: t))
    have hb := h b (List.mem_cons_of_mem a (List.mem_cons_self b t))
    rw [show collapseWs (a :: b :: t) = collapseWs (b :: t) by simp [collapseWs, ha, hb]]
    exact collapseWs_all_space (fun c hc => h c (List.mem_cons_of_mem a hc))

theorem trimLeft_cons_space {c : Char} {x : List Char} (h : isSpaceChar c = true) :
    trimLeft (c :: x) = trimLeft x := by
  simp [trimLeft, List.dropWhile, h]

theorem trimLeft_cons_nonspace {c : Char} {x : List Char} (h : isSpaceChar c = false) :
    trimLeft (c :: x) = c :: x := by
  simp [trimLeft, List.dropWhile, h]

theorem trimRight_eq_nil_iff {z : List Char} :
    trimRight z = [] ↔ ∀ c ∈ z, isSpaceChar c = true := by
  unfold trimRight
  rw [List.reverse_eq_nil_iff, List.dropWhile_eq_nil_iff]
  constructor
  · intro h c hc
    exact h c (List.mem_reverse.mpr hc)
  · intro h c hc
    exact h c (List.mem_reverse.mp hc)

theorem trimRight_cons (a : Char) (z : List Char) :
    trimRight (a :: z) = if trimRight z = [] then
      (if isSpaceChar a = true then [] else [a]) else a :: trimRight z := by
  unfold trimRight
  rw [show (a :: z).reverse = z.reverse ++ [a] by simp, List.dropWhile_append]
  by_cases h : (z.reverse.dropWhile isSpaceChar).isEmpty = true
  · rw [if_pos h]
    have h' : z.reverse.dropWhile isSpaceChar = [] := by
      cases hh : z.reverse.dropWhile isSpaceChar
      · rfl
      · rw [hh] at h; exact absurd h (by simp)
    rw [if_pos (by rw [h']; rfl)]
    by_cases ha : isSpaceChar a = true
    · simp [List.dropWhile, ha]
    · have ha' : isSpaceChar a = false := by
        cases hh : isSpaceChar a
        · rfl
        · exact absurd hh ha
      simp [List.dropWhile, ha']
  · rw [if_neg h]
    have h' : z.reverse.dropWhile isSpaceChar ≠ [] := by
      intro hh
      rw [hh] at h
      exact h rfl
    rw [if_neg (by simpa [List.reverse_eq_nil_iff] using h')]
    simp

theorem trimRight_append_word : ∀ {u : List Char},
    (∀ x ∈ u, isSpaceChar x = false) → ∀ v : List Char,
      trimRight (u ++ v) = u ++ trimRight v
  | [], _, v => rfl
  | a :: u', h, v => by
    have ha := h a (List.mem_cons_self a u')
    rw [List.cons_append, trimRight_cons,
      trimRight_append_word (fun x hx => h x (List.mem_cons_of_mem a hx)) v]
    by_cases hnil : u' ++ trimRight v = []
    · rcases List.append_eq_nil.mp hnil with ⟨rfl, h2⟩
      rw [if_pos (by simp [h2]), if_neg (by rw [ha]; exact Bool.false_ne_true), h2]
      simp
    · rw [if_neg hnil]
      simp

theorem splitWs_dropWhile_space : ∀ t : List Char,
    splitWs (t.dropWhile isSpaceChar) = splitWs t
  | [] => rfl
  | d :: t' => by
    by_cases hd : isSpaceChar d = true
    · rw [List.dropWhile, hd]
      show splitWs (t'.dropWhile isSpaceChar) = splitWs (d :: t')
      rw [splitWs_dropWhile_space t', splitWs_cons_space hd]
    · have hd' : isSpaceChar d = false := by
        cases hh : isSpaceChar d
        · rfl
        · exact absurd hh hd
      rw [List.dropWhile, hd']

theorem splitWs_eq_nil_all_space : ∀ {l : List Char}, splitWs l = [] →
    ∀ c ∈ l, isSpaceChar c = true
  | [], _, c, hc => absurd hc (List.not_mem_nil c)
  | a :: t, h, c, hc => by
    by_cases ha : isSpaceChar a = true
    · rcases List.mem_cons.mp hc with rfl | hct
      · exact ha
      · rw [splitWs_cons_space ha] at h
        exact splitWs_eq_nil_all_space h c hct
    · have ha' : isSpaceChar a = false := by
        cases hh : isSpaceChar a
        · rfl
        · exact absurd hh ha
      rw [splitWs_cons_word ha'] at h
      exact absurd h (by simp)

theorem dropWhile_head_not {p : Char → Bool} : ∀ {l r : List Char} {c : Char},
    l.dropWhile p = c :: r → p c = false
  | [], r, c, h => by simp [List.dropWhile] at h
  | a :: t, r, c, h => by
    by_cases ha : p a = true
    · rw [List.dropWhile, ha] at h
      exact dropWhile_head_not h
    · have ha' : p a = false := by
        cases hh : p a
        · rfl
        · exact absurd hh ha
      rw [List.dropWhile, ha'] at h
      cases h
      exact ha'

theorem trim_cons_space {c : Char} {x : List Char} (h : isSpaceChar c = true) :
    trim (c :: x) = trim x := by
  unfold trim
  rw [trimLeft_cons_space h]

/-- The normal-form lemma: collapsing whitespace and stripping is the
same as splitting into words and re-joining with single spaces. -/
theorem trim_collapse_aux : ∀ (n : Nat) (l : List Char), l.length ≤ n →
    trim (collapseWs l) = joinWs (splitWs l) := by
  intro n
  induction n with
  | zero =>
    intro l hl
    have : l = [] := by
      cases l with
      | nil => rfl
      | cons a t => simp at hl
    subst this
    rfl
  | succ n ih =>
    intro l hl
    cases l with
    | nil => rfl
    | cons c t =>
      by_cases hc : isSpaceChar c = true
      · rw [collapseWs_cons_space hc t, trim_cons_space (by decide),
          splitWs_cons_space hc, ← splitWs_dropWhile_space t]
        exact ih (t.dropWhile isSpaceChar) (by
          have := length_dropWhile_le' isSpaceChar t
          simp only [List.length_cons] at hl
          omega)
      · have hc' : isSpaceChar c = false := by
          cases hh : isSpaceChar c
          · rfl
          · exact absurd hh hc
        have ht : t.takeWhile (fun x => !isSpaceChar x) ++
            t.dropWhile (fun x => !isSpaceChar x) = t :=
          List.takeWhile_append_dropWhile _ t
        have hw0 : ∀ x ∈ (c :: t.takeWhile (fun x => !isSpaceChar x)),
            isSpaceChar x = false := by
          intro x hx
          rcases List.mem_cons.mp hx with rfl | hxt
          · exact hc'
          · have := List.mem_takeWhile_imp hxt
            simpa using this
        have hsplit := splitWs_cons_word (t := t) hc'
        have hcollapse : collapseWs (c :: t) =
            (c :: t.takeWhile (fun x => !isSpaceChar x)) ++
              collapseWs (t.dropWhile (fun x => !isSpaceChar x)) := by
          conv_lhs => rw [show c :: t =
            (c :: t.takeWhile (fun x => !isSpaceChar x)) ++
              t.dropWhile (fun x => !isSpaceChar x) by
            rw [List.cons_append, ht]]
          exact collapseWs_append_word hw0 _
        rw [hcollapse, hsplit]
        have htrim : trim ((c :: t.takeWhile (fun x => !isSpaceChar x)) ++
            collapseWs (t.dropWhile (fun x => !isSpaceChar x))) =
            (c :: t.takeWhile (fun x => !isSpaceChar x)) ++
              trimRight (collapseWs (t.dropWhile (fun x => !isSpaceChar x))) := by
          unfold trim
          rw [List.cons_append, trimLeft_cons_nonspace hc', ← List.cons_append,
            trimRight_append_word hw0]
        rw [htrim]
        have hlt' : (t.dropWhile (fun x => !isSpaceChar x)).length ≤ t.length :=
          length_dropWhile_le' _ t
        cases hsp : splitWs (t.dropWhile (fun x => !isSpaceChar x)) with
        | nil =>
          have hall := splitWs_eq_nil_all_space hsp
          rcases collapseWs_all_space hall with hcw | hcw
          · rw [hcw]
            simp [joinWs, trimRight]
          · rw [hcw]
            have : trimRight [' '] = ([] : List Char) := by decide
            rw [this]
            simp [joinWs]
        | cons w' ws'' =>
          cases ht' : t.dropWhile (fun x => !isSpaceChar x) with
          | nil =>
            rw [ht'] at hsp
            exact absurd hsp (by simp [splitWs, splitWsAux])
          | cons s0 t'' =>
            have hs0 : isSpaceChar s0 = true := by
              have := dropWhile_head_not ht'
              simpa using this
            have hv_split : splitWs (t''.dropWhile isSpaceChar) = w' :: ws'' := by
              rw [splitWs_dropWhile_space t'']
              rw [ht'] at hsp
              rw [← splitWs_cons_space hs0]
              exact hsp
            cases hv : t''.dropWhile isSpaceChar with
            | nil =>
              rw [hv] at hv_split
              exact absurd hv_split (by simp [splitWs, splitWsAux])
            | cons hv0 vt =>
              have hhv0 : isSpaceChar hv0 = false := dropWhile_head_not hv
              have hcwt' : collapseWs (s0 :: t'') =
                  ' ' :: collapseWs (t''.dropWhile isSpaceChar) :=
                collapseWs_cons_space hs0 t''
              rw [hcwt']
              have hcwv : collapseWs (t''.dropWhile isSpaceChar) =
                  hv0 :: collapseWs vt := by
                rw [hv]
                exact collapseWs_cons_nonspace hhv0
              have htrne : trimRight (collapseWs (t''.dropWhile isSpaceChar)) ≠ [] := by
                intro heq
                have hv0mem : hv0 ∈ collapseWs (t''.dropWhile isSpaceChar) := by
                  rw [hcwv]
                  exact List.mem_cons_self hv0 (collapseWs vt)
                have := trimRight_eq_nil_iff.mp heq hv0 hv0mem
                rw [hhv0] at this
                exact Bool.false_ne_true this
              rw [trimRight_cons, if_neg htrne]
              have hrec : trimRight (collapseWs (t''.dropWhile isSpaceChar)) =
                  joinWs (splitWs (t''.dropWhile isSpaceChar)) := by
                have htl : trimLeft (collapseWs (t''.dropWhile isSpaceChar)) =
                    collapseWs (t''.dropWhile isSpaceChar) := by
                  rw [hcwv]
                  exact trimLeft_cons_nonspace hhv0
                have := ih (t''.dropWhile isSpaceChar) (by
                  have h1 := length_dropWhile_le' isSpaceChar t''
                  have h2 := congrArg List.length ht'
                  simp only [List.length_cons] at h2 hl
                  omega)
                unfold trim at this
                rw [htl] at this
                exact this
              rw [hrec, hv_split]
              simp [joinWs]

theorem trim_collapse_eq_join_split (l : List Char) :
    trim (collapseWs l) = joinWs (splitWs l) :=
  trim_collapse_aux l.length l (Nat.le_refl _)

theorem takeWhile_append_all {p : Char → Bool} : ∀ {u : List Char},
    (∀ x ∈ u, p x = true) → ∀ v : List Char,
      (u ++ v).takeWhile p = u ++ v.takeWhile p
  | [], _, v => rfl
  | a :: u', h, v => by
    rw [List.cons_append, List.takeWhile, h a (List.mem_cons_self a u')]
    rw [takeWhile_append_all (fun x hx => h x (List.mem_cons_of_mem a hx)) v]
    rfl

theorem dropWhile_append_all {p : Char → Bool} : ∀ {u : List Char},
    (∀ x ∈ u, p x = true) → ∀ v : List Char,
      (u ++ v).dropWhile p = v.dropWhile p
  | [], _, v => rfl
  | a :: u', h, v => by
    rw [List.cons_append, List.dropWhile, h a (List.mem_cons_self a u')]
    exact dropWhile_append_all (fun x hx => h x (List.mem_cons_of_mem a hx)) v

theorem splitWs_append_word {w : List Char} (hne : w ≠ [])
    (hns : ∀ c ∈ w, isSpaceChar c = false) (r : List Char) :
    splitWs (w ++ r) = (w ++ r.takeWhile (fun x => !isSpaceChar x)) ::
      splitWs (r.dropWhile (fun x => !isSpaceChar x)) := by
  cases w with
  | nil => exact absurd rfl hne
  | cons a w' =>
    have ha := hns a (List.mem_cons_self a w')
    have hw' : ∀ x ∈ w', (fun x => !isSpaceChar x) x = true := by
      intro x hx
      simp [hns x (List.mem_cons_of_mem a hx)]
    rw [List.cons_append, splitWs_cons_word ha,
      takeWhile_append_all hw' r, dropWhile_append_all hw' r]
    rfl

/-- Splitting is a left inverse of joining for lists of nonempty
whitespace-free words. -/
theorem splitWs_joinWs : ∀ ws : List (List Char),
    (∀ w ∈ ws, w ≠ [] ∧ ∀ c ∈ w, isSpaceChar c = false) →
      splitWs (joinWs ws) = ws
  | [], _ => rfl
  | [w], h => by
    have hw := h w (List.mem_cons_self w [])
    have : joinWs [w] = w ++ [] := by simp [joinWs]
    rw [this, splitWs_append_word hw.1 hw.2]
    simp [splitWs, splitWsAux, List.takeWhile, List.dropWhile]
  | w :: w2 :: ws'', h => by
    have hw := h w (List.mem_cons_self w (w2 :: ws''))
    have hrest : ∀ v ∈ w2 :: ws'', v ≠ [] ∧ ∀ c ∈ v, isSpaceChar c = false :=
      fun v hv => h v (List.mem_cons_of_mem w hv)
    have hjoin : joinWs (w :: w2 :: ws'') = w ++ ' ' :: joinWs (w2 :: ws'') := rfl
    rw [hjoin, splitWs_append_word hw.1 hw.2]
    have hsp : isSpaceChar ' ' = true := by decide
    have htw : (' ' :: joinWs (w2 :: ws'')).takeWhile (fun x => !isSpaceChar x) = [] := by
      simp [List.takeWhile, hsp]
    have hdw : (' ' :: joinWs (w2 :: ws'')).dropWhile (fun x => !isSpaceChar x) =
        ' ' :: joinWs (w2 :: ws'') := by
      simp [List.dropWhile, hsp]
    rw [htw, hdw, List.append_nil, splitWs_cons_space hsp,
      splitWs_joinWs (w2 :: ws'') hrest]

/-- Every word of `splitWs` is nonempty and whitespace-free. -/
theorem splitWs_wf : ∀ (l : List Char), ∀ w ∈ splitWs l,
    w ≠ [] ∧ ∀ c ∈ w, isSpaceChar c = false
  | [], w, h => absurd h (by simp [splitWs, splitWsAux])
  | a :: t, w, h => by
    by_cases ha : isSpaceChar a = true
    · rw [splitWs_cons_space ha] at h
      exact splitWs_wf t w h
    · have ha' : isSpaceChar a = false := by
        cases hh : isSpaceChar a
        · rfl
        · exact absurd hh ha
      rw [splitWs_cons_word ha'] at h
      rcases List.mem_cons.mp h with rfl | hmem
      · refine ⟨by simp, ?_⟩
        intro c hc
        rcases List.mem_cons.mp hc with rfl | hct
        · exact ha'
        · have := List.mem_takeWhile_imp hct
          simpa using this
      · exact splitWs_wf (t.dropWhile (fun x => !isSpaceChar x)) w hmem
termination_by l _ _ => l.length
decreasing_by
  · simp only [List.length_cons]; omega
  · simp only [List.length_cons]
    exact Nat.lt_succ_of_le (length_dropWhile_le' _ _)

/-- Characters of `splitWs` words are characters of the input. -/
theorem mem_splitWs_mem {l w : List Char} {c : Char} (hw : w ∈ splitWs l)
    (hc : c ∈ w) : c ∈ l := by
  obtain ⟨i, hi⟩ := mem_splitWs_occurs l w hw
  obtain ⟨t, ht⟩ := startsList_iff.mp hi
  have hcd : c ∈ l.drop i := by
    rw [ht]
    exact List.mem_append.mpr (Or.inl hc)
  exact List.mem_of_mem_drop hcd

theorem joinWs_chars : ∀ (ws : List (List Char)) (c : Char), c ∈ joinWs ws →
    c = ' ' ∨ ∃ w ∈ ws, c ∈ w
  | [], c, h => absurd h (List.not_mem_nil c)
  | [w], c, h => Or.inr ⟨w, List.mem_cons_self w [], h⟩
  | w :: w2 :: ws'', c, h => by
    have : joinWs (w :: w2 :: ws'') = w ++ ' ' :: joinWs (w2 :: ws'') := rfl
    rw [this] at h
    rcases List.mem_append.mp h with hw | hrest
    · exact Or.inr ⟨w, List.mem_cons_self w _, hw⟩
    · rcases List.mem_cons.mp hrest with rfl | hrest'
      · exact Or.inl rfl
      · rcases joinWs_chars (w2 :: ws'') c hrest' with h' | ⟨v, hv, hcv⟩
        · exact Or.inl h'
        · exact Or.inr ⟨v, List.mem_cons_of_mem w hv, hcv⟩

theorem joinWs_mem_of : ∀ (ws : List (List Char)) (w : List Char) (c : Char),
    w ∈ ws → c ∈ w → c ∈ joinWs ws
  | [], _, _, hw, _ => absurd hw (List.not_mem_nil _)
  | [v], w, c, hw, hc => by
    rcases List.mem_cons.mp hw with rfl | h
    · exact hc
    · exact absurd h (List.not_mem_nil _)
  | v :: v2 :: ws'', w, c, hw, hc => by
    have : joinWs (v :: v2 :: ws'') = v ++ ' ' :: joinWs (v2 :: ws'') := rfl
    rw [this]
    rcases List.mem_cons.mp hw with rfl | h
    · exact List.mem_append.mpr (Or.inl hc)
    · exact List.mem_append.mpr (Or.inr (List.mem_cons_of_mem ' '
        (joinWs_mem_of (v2 :: ws'') w c h hc)))

/-! ### Identity and character-class lemmas for the cleaning steps -/

theorem step1F_id : ∀ (fuel : Nat) (l : List Char), '[' ∉ l → step1F fuel l = l
  | 0, l, _ => rfl
  | _ + 1, [], _ => rfl
  | fuel + 1, c :: rest, h => by
    have hc : ¬ (c = '[') := fun hh => h (hh ▸ List.mem_cons_self c rest)
    rw [step1F, if_neg hc, step1F_id fuel rest (fun hh => h (List.mem_cons_of_mem c hh))]

theorem step1_id {l : List Char} (h : '[' ∉ l) : step1 l = l :=
  step1F_id l.length l h

theorem step2F_id : ∀ (fuel : Nat) (l : List Char), '[' ∉ l → step2F fuel l = l
  | 0, l, _ => rfl
  | _ + 1, [], _ => rfl
  | fuel + 1, c :: rest, h => by
    have hc : ¬ (c = '[') := fun hh => h (hh ▸ List.mem_cons_self c rest)
    rw [step2F, if_neg hc, step2F_id fuel rest (fun hh => h (List.mem_cons_of_mem c hh))]

theorem step2_id {l : List Char} (h : '[' ∉ l) : step2 l = l :=
  step2F_id l.length l h

theorem step3_chars (l : List Char) : ∀ c ∈ step3 l,
    isWordChar c = true ∨ isSpaceChar c = true := by
  intro c hc
  obtain ⟨x, _, hfx⟩ := List.mem_map.mp hc
  by_cases hx : isWordChar x || isSpaceChar x
  · rw [if_pos hx] at hfx
    subst hfx
    simpa using hx
  · rw [if_neg hx] at hfx
    subst hfx
    right
    decide

theorem step3_id {l : List Char}
    (h : ∀ c ∈ l, isWordChar c = true ∨ isSpaceChar c = true) : step3 l = l := by
  unfold step3
  induction l with
  | nil => rfl
  | cons a t ih =>
    have ha : (isWordChar a || isSpaceChar a) = true := by
      rcases h a (List.mem_cons_self a t) with h' | h' <;> simp [h']
    simp only [List.map_cons, if_pos ha, List.cons.injEq]
    exact ⟨trivial, ih (fun c hc => h c (List.mem_cons_of_mem a hc))⟩

theorem subDigits_chars : ∀ (l : List Char), ∀ c ∈ subDigits l,
    isDigitChar c = false ∧ (c = ' ' ∨ c ∈ l)
  | [], c, hc => absurd hc (List.not_mem_nil c)
  | [a], c, hc => by
    by_cases ha : isDigitChar a = true
    · simp only [subDigits, ha, if_pos, reduceIte] at hc
      rcases List.mem_cons.mp hc with rfl | h
      · exact ⟨by decide, Or.inl rfl⟩
      · exact absurd h (List.not_mem_nil c)
    · have ha' : isDigitChar a = false := by
        cases hh : isDigitChar a
        · rfl
        · exact absurd hh ha
      simp only [subDigits, ha', if_neg, reduceIte] at hc
      rcases List.mem_cons.mp hc with rfl | h
      · exact ⟨ha', Or.inr (List.mem_cons_self c [])⟩
      · exact absurd h (List.not_mem_nil c)
  | a :: b :: t, c, hc => by
    by_cases ha : isDigitChar a = true
    · by_cases hb : isDigitChar b = true
      · rw [show subDigits (a :: b :: t) = subDigits (b :: t) by
          simp [subDigits, ha, hb]] at hc
        obtain ⟨h1, h2⟩ := subDigits_chars (b :: t) c hc
        exact ⟨h1, h2.imp id (List.mem_cons_of_mem a)⟩
      · have hb' : isDigitChar b = false := by
          cases hh : isDigitChar b
          · rfl
          · exact absurd hh hb
        rw [show subDigits (a :: b :: t) = ' ' :: subDigits (b :: t) by
          simp [subDigits, ha, hb']] at hc
        rcases List.mem_cons.mp hc with rfl | h
        · exact ⟨by decide, Or.inl rfl⟩
        · obtain ⟨h1, h2⟩ := subDigits_chars (b :: t) c h
          exact ⟨h1, h2.imp id (List.mem_cons_of_mem a)⟩
    · have ha' : isDigitChar a = false := by
        cases hh : isDigitChar a
        · rfl
        · exact absurd hh ha
      rw [show subDigits (a :: b :: t) = a :: subDigits (b :: t) by
        simp [subDigits, ha']] at hc
      rcases List.mem_cons.mp hc with rfl | h
      · exact ⟨ha', Or.inr (List.mem_cons_self c _)⟩
      · obtain ⟨h1, h2⟩ := subDigits_chars (b :: t) c h
        exact ⟨h1, h2.imp id (List.mem_cons_of_mem a)⟩

theorem subDigits_id : ∀ {l : List Char},
    (∀ c ∈ l, isDigitChar c = false) → subDigits l = l
  | [], _ => rfl
  | [a], h => by
    simp [subDigits, h a (List.mem_cons_self a [])]
  | a :: b :: t, h => by
    have ha := h a (List.mem_cons_self a (b :: t))
    rw [show subDigits (a :: b :: t) = a :: subDigits (b :: t) by
      simp [subDigits, ha]]
    rw [subDigits_id (fun c hc => h c (List.mem_cons_of_mem a hc))]

theorem step4_chars {l : List Char} : ∀ c ∈ step4 l, c = ' ' ∨ c ∈ l := by
  intro c hc
  rcases joinWs_chars _ c hc with rfl | ⟨w, hw, hcw⟩
  · exact Or.inl rfl
  · have hw' := List.mem_of_mem_filter hw
    have hcsub : c ∈ subDigits l := mem_splitWs_mem hw' hcw
    rcases (subDigits_chars l c hcsub).2 with h | h
    · exact Or.inl h
    · exact Or.inr h

theorem step4_no_digits {l : List Char} : ∀ c ∈ step4 l, isDigitChar c = false := by
  intro c hc
  rcases joinWs_chars _ c hc with rfl | ⟨w, hw, hcw⟩
  · decide
  · have hw' := List.mem_of_mem_filter hw
    have hcsub : c ∈ subDigits l := mem_splitWs_mem hw' hcw
    exact (subDigits_chars l c hcsub).1

/-- On an already-normalized, digit-free string, step 4 is the identity:
no word contains a digit, digit removal changes nothing, no fragments
are dropped, and re-joining the split words restores the string. -/
theorem step4_id {l : List Char} (hdig : ∀ c ∈ l, isDigitChar c = false)
    (hnorm : joinWs (splitWs l) = l) : step4 l = l := by
  simp only [step4]
  have hwwd : (splitWs l).filter (fun w => w.any isDigitChar) = [] := by
    rw [List.filter_eq_nil_iff]
    intro w hw hany
    obtain ⟨x, hx, hdx⟩ := List.any_eq_true.mp hany
    have := hdig x (mem_splitWs_mem hw hx)
    rw [this] at hdx
    exact Bool.false_ne_true hdx
  rw [hwwd, subDigits_id hdig]
  have hkeep : (splitWs l).filter (fun w =>
      !(([] : List (List Char)).any (fun ow => startsList w ow || endsList w ow) &&
        decide (w.length ≤ 2))) = splitWs l := by
    rw [List.filter_eq_self]
    intro w _
    simp [List.any]
  rw [hkeep, hnorm]

/-- The defining equation of `clean_text_for_search`, spelled out. -/
theorem clean_def (t : List Char) (d : Bool) : clean_text_for_search t d =
    if t = [] then []
    else trim (collapseWs (if d then step4 (step3 (step2 (step1 t)))
      else step3 (step2 (step1 t)))) := rfl

/-- Structure of cleaned output: every character is a word character or
a space, under digit stripping no digits remain, and the output is the
single-space join of its own words. -/
theorem clean_chars (s : List Char) (d : Bool) :
    (∀ c ∈ clean_text_for_search s d, isWordChar c = true ∨ isSpaceChar c = true) ∧
    (d = true → ∀ c ∈ clean_text_for_search s d, isDigitChar c = false) ∧
    joinWs (splitWs (clean_text_for_search s d)) = clean_text_for_search s d := by
  by_cases hs : s = []
  · subst hs
    refine ⟨?_, ?_, rfl⟩
    · intro c hc
      exact absurd hc (List.not_mem_nil c)
    · intro _ c hc
      exact absurd hc (List.not_mem_nil c)
  · have hout_def : clean_text_for_search s d =
        trim (collapseWs (if d then step4 (step3 (step2 (step1 s)))
          else step3 (step2 (step1 s)))) := by
      rw [clean_def s d, if_neg hs]
    have hc4chars : ∀ c ∈ (if d then step4 (step3 (step2 (step1 s)))
        else step3 (step2 (step1 s))),
        isWordChar c = true ∨ isSpaceChar c = true := by
      intro c hc
      by_cases hd : d = true
      · rw [hd, if_pos rfl] at hc
        rcases step4_chars c hc with rfl | hcy
        · right; decide
        · exact step3_chars _ c hcy
      · have hd' : d = false := by
          cases d
          · rfl
          · exact absurd rfl hd
        rw [hd'] at hc
        simp only [Bool.false_eq_true, if_false, reduceIte] at hc
        exact step3_chars _ c hc
    have hout_join : clean_text_for_search s d =
        joinWs (splitWs (if d then step4 (step3 (step2 (step1 s)))
          else step3 (step2 (step1 s)))) := by
      rw [hout_def, trim_collapse_eq_join_split]
    refine ⟨?_, ?_, ?_⟩
    · intro c hc
      rw [hout_join] at hc
      rcases joinWs_chars _ c hc with rfl | ⟨w, hw, hcw⟩
      · right; decide
      · exact hc4chars c (mem_splitWs_mem hw hcw)
    · intro hd c hc
      rw [hout_join] at hc
      rcases joinWs_chars _ c hc with rfl | ⟨w, hw, hcw⟩
      · decide
      · have hc4' := mem_splitWs_mem hw hcw
        rw [hd, if_pos rfl] at hc4'
        exact step4_no_digits c hc4'
    · rw [hout_join, splitWs_joinWs _ (splitWs_wf _)]

/-- C6: normalization is idempotent —
`clean_text_for_search (clean_text_for_search s d) d =
clean_text_for_search s d` for every string `s` and digit flag `d`. -/
theorem claim_C6 (s : List Char) (d : Bool) :
    clean_text_for_search (clean_text_for_search s d) d =
      clean_text_for_search s d := by
  obtain ⟨houtchars, houtdig, hnorm_out⟩ := clean_chars s d
  by_cases hout : clean_text_for_search s d = []
  · rw [hout]
    rfl
  · have hnb : '[' ∉ clean_text_for_search s d := by
      intro hmem
      rcases houtchars '[' hmem with h | h
      · exact absurd h (by decide)
      · exact absurd h (by decide)
    have hfinal : trim (collapseWs (clean_text_for_search s d)) =
        clean_text_for_search s d := by
      rw [trim_collapse_eq_join_split, hnorm_out]
    rw [clean_def (clean_text_for_search s d) d, if_neg hout,
      step1_id hnb, step2_id hnb, step3_id houtchars]
    by_cases hd : d = true
    · subst hd
      rw [if_pos rfl, step4_id (houtdig rfl) hnorm_out]
      exact hfinal
    · have hd' : d = false := by
        cases d
        · rfl
        · exact absurd rfl hd
      subst hd'
      simp only [Bool.false_eq_true, if_false, reduceIte]
      exact hfinal

end CheckLinks
